import Mathlib

/-!
LR(0) canonical collection (`week9.cpp`): closure, goTo and the discovery loop

A shallow embedding of `src/week9.cpp`.

Modelling conventions
* `std::string` is `List Char`; a C++ `char` is a Lean `Char`, compared by code point
  (this agrees with the byte order of `std::string` on ASCII text), and `isupper` is the
  "C" locale test `'A'..'Z'`.
* `std::set<string>` is a list kept strictly increasing (its iteration order); the predicate
  `IsSet` states that invariant of the type.
* `std::map` is an association list with unique keys; the modelled code only uses
  `count` and `operator[]`, so the iteration order of maps is not represented.
* `int` positions are `Nat`; the value `-1` obtained from `npos` is modelled by the
  explicit "not found" branches of `parse`.
* An uncaught `std::out_of_range` is `Fault.outOfRange`; `g[0]` on an empty vector is
  `Fault.undefined`; `Fault.outOfFuel` is the model's own "loop did not stop within the
  allotted number of iterations" and is proved unreachable.
-/

namespace Week9

/-- Text of a `std::string`. -/
abbrev Str := List Char

/-- The global `g`: one `(LHS, RHS)` pair per production. -/
abbrev Grammar := List (Str × Str)

/-- Contents of a `std::set<string>`, in iteration order. -/
abbrev ItemSet := List Str

/-- Ways a run can fail to produce a value. -/
inductive Fault where
  | outOfRange
  | undefined
  | outOfFuel
  deriving DecidableEq, Repr

/-! ## Strings -/

/-- Lexicographic `<=` of `std::string`. -/
def strLe : Str → Str → Bool
  | [], _ => true
  | _ :: _, [] => false
  | a :: as, b :: bs =>
    if a.toNat < b.toNat then true
    else if b.toNat < a.toNat then false
    else strLe as bs

/-- Index of the first occurrence of `pat` in `s` (`std::string::find`), `none` for `npos`. -/
def findStr (pat : Str) : Str → Option Nat
  | [] => if pat = [] then some 0 else none
  | c :: cs =>
    if pat <+: (c :: cs) then some 0
    else (findStr pat cs).map (· + 1)

/-- Index of the first occurrence of the character `c` in `s`, `none` for `npos`. -/
def findChar (c : Char) : Str → Option Nat
  | [] => none
  | x :: xs => if x = c then some 0 else (findChar c xs).map (· + 1)

/-- The text `"->"`. -/
def arrow : Str := ['-', '>']

/-- Source `make(A, B, d)`: `A + "->" + B.substr(0, d) + "." + B.substr(d)`.
Every call in the program has `d <= B.size()`, where `substr` does not throw. -/
def make (A B : Str) (d : Nat) : Str :=
  A ++ arrow ++ B.take d ++ ['.'] ++ B.drop d

/-- Source `parse(it, A, B, d)`, returning `(A, B, d)`.
When `"->"` is absent `x` is `-1`: `substr(0, x)` is the whole text and `substr(x + 2)` is
`substr(1)`, which throws on the empty text. When the part after the arrow has no `'.'`,
`d` is `-1` and `B.erase(d, 1)` throws. -/
def parse (it : Str) : Except Fault (Str × Str × Nat) :=
  let AB : Except Fault (Str × Str) :=
    match findStr arrow it with
    | some x => .ok (it.take x, it.drop (x + 2))
    | none => if it.length < 1 then .error .outOfRange else .ok (it, it.drop 1)
  match AB with
  | .error e => .error e
  | .ok (A, B0) =>
    match findChar '.' B0 with
    | some d => .ok (A, B0.eraseIdx d, d)
    | none => .error .outOfRange

/-! ## Sets and maps -/

/-- Invariant of `std::set<string>`: strictly increasing. -/
def IsSet (I : ItemSet) : Prop :=
  I.Sorted (fun a b => strLe a b = true) ∧ I.Nodup

/-- Source `I.insert(x)`: the new contents and `.second` (whether `x` was new). -/
def setInsert (x : Str) (I : ItemSet) : ItemSet × Bool :=
  if x ∈ I then (I, false) else (I.orderedInsert (fun a b => strLe a b = true) x, true)

/-- Source `m.count(k)` / lookup in a `std::map`. -/
def mapGet {κ ν : Type} [DecidableEq κ] (k : κ) : List (κ × ν) → Option ν
  | [] => none
  | (k', v) :: m => if k = k' then some v else mapGet k m

/-- Source `m[k] = v`. -/
def mapSet {κ ν : Type} [DecidableEq κ] (k : κ) (v : ν) : List (κ × ν) → List (κ × ν)
  | [] => [(k, v)]
  | (k', v') :: m => if k = k' then (k, v) :: m else (k', v') :: mapSet k v m

/-! ## closure -/

/-- The inner `for (auto p : g)` of `closure` for the nonterminal `N = B[d]`:
`p.first[0]` of an empty `p.first` is the terminating `'\0'`. -/
def expand (N : Char) : Grammar → ItemSet × Bool → ItemSet × Bool
  | [], st => st
  | p :: ps, st =>
    if p.1.headD (Char.ofNat 0) = N then
      let r := setInsert (make p.1 p.2 0) st.1
      expand N ps (r.1, if r.2 then true else st.2)
    else expand N ps st

/-- The `for (auto it : v)` of one pass of `closure`, over the snapshot `v`, carrying the
working set `I` and the flag `c`. -/
def closurePass (g : Grammar) : List Str → ItemSet × Bool → Except Fault (ItemSet × Bool)
  | [], st => .ok st
  | it :: v, st =>
    match parse it with
    | .error e => .error e
    | .ok (_, B, d) =>
      match B[d]? with
      | some N => if N.isUpper then closurePass g v (expand N g st) else closurePass g v st
      | none => closurePass g v st

/-- The `do ... while (c)` of `closure`, allowed at most `n` passes. -/
def closureLoop (g : Grammar) : Nat → ItemSet → Except Fault ItemSet
  | 0, _ => .error .outOfFuel
  | n + 1, I =>
    match closurePass g I (I, false) with
    | .error e => .error e
    | .ok (I', c) => if c then closureLoop g n I' else .ok I'

/-- Source `closure(I)`; `g.length + 1` passes always suffice (`closureLoop_fuel`). -/
def closure (g : Grammar) (I : ItemSet) : Except Fault ItemSet :=
  closureLoop g (g.length + 1) I

/-! ## goTo -/

/-- The `for (auto it : I)` of `goTo`, carrying `J`. -/
def moved (X : Char) : List Str → ItemSet → Except Fault ItemSet
  | [], J => .ok J
  | it :: I, J =>
    match parse it with
    | .error e => .error e
    | .ok (A, B, d) =>
      if B[d]? = some X then moved X I (setInsert (make A B (d + 1)) J).1
      else moved X I J

/-- Source `goTo(I, X)`. -/
def goTo (g : Grammar) (I : ItemSet) (X : Char) : Except Fault ItemSet :=
  match moved X I [] with
  | .error e => .error e
  | .ok J => if J = [] then .ok [] else closure g J

/-! ## The automaton builder of `main` -/

/-- The mutable state of the discovery loop: `C`, `T` and `idx`. -/
structure Builder where
  C : List ItemSet
  T : List (List (Char × Nat))
  idx : List (Str × Nat)
  deriving DecidableEq, Repr

/-- The lambda `key` of `main`: `k += x + "|"` over the set in order. -/
def key (s : ItemSet) : Str :=
  s.foldl (fun k x => k ++ (x ++ ['|'])) []

/-- Body of `for (char X : S)` for the state `i`. `C[i]` and `T[i]` exist because the outer
loop has checked `i < C.size()` and `C`, `T` only grow; `idx[k]` is read after `k` has been
made present. -/
def visit (g : Grammar) (i : Nat) (X : Char) (b : Builder) : Except Fault Builder :=
  match goTo g (b.C.getD i []) X with
  | .error e => .error e
  | .ok J =>
    if J = [] then .ok b
    else
      let k := key J
      let b1 : Builder :=
        if (mapGet k b.idx).isNone then
          { C := b.C ++ [J], T := b.T ++ [[]], idx := mapSet k b.C.length b.idx }
        else b
      .ok { b1 with T := b1.T.set i (mapSet X ((mapGet k b1.idx).getD 0) (b1.T.getD i [])) }

/-- The `for (char X : S)` loop for the state `i`. -/
def forSymbols (g : Grammar) (i : Nat) : List Char → Builder → Except Fault Builder
  | [], b => .ok b
  | X :: xs, b =>
    match visit g i X b with
    | .error e => .error e
    | .ok b1 => forSymbols g i xs b1

/-- The `for (int i = 0; i < (int)C.size(); i++)` loop, allowed at most `n` iterations. -/
def discover (g : Grammar) (S : List Char) : Nat → Nat → Builder → Except Fault Builder
  | 0, i, b => if i < b.C.length then .error .outOfFuel else .ok b
  | n + 1, i, b =>
    if i < b.C.length then
      match forSymbols g i S b with
      | .error e => .error e
      | .ok b1 => discover g S n (i + 1) b1
    else .ok b

/-- Source `S.insert(c)` on a `std::set<char>`. -/
def symInsert (c : Char) (S : List Char) : List Char :=
  if c ∈ S then S else S.orderedInsert (fun a b => a.toNat ≤ b.toNat) c

/-- Number of texts `make A B d` with `(A, B)` in `g` and `d <= |B|`. -/
def itemCount (g : Grammar) : Nat :=
  (g.map (fun p => p.2.length + 1)).sum

/-- The part of `main` between reading the grammar (into `g0` and `S0`) and the discovery
loop: augmentation with `S' -> S`, `S.insert(start[0])`, `I0`, and the initial `C`, `T`, `idx`.
Returns the augmented grammar, the symbol alphabet and the initial state of the loop. -/
def setup (g0 : Grammar) (S0 : List Char) : Except Fault (Grammar × List Char × Builder) :=
  match g0 with
  | [] => .error .undefined
  | (start, _) :: _ =>
    let aug := start ++ [Char.ofNat 39]
    let g : Grammar := (aug, start) :: g0
    let S := symInsert (start.headD (Char.ofNat 0)) S0
    match closure g [make aug start 0] with
    | .error e => .error e
    | .ok I0 => .ok (g, S, { C := [I0], T := [[]], idx := mapSet (key I0) 0 [] })

/-- The part of `main` from augmentation to the end of the discovery loop;
`2 ^ itemCount g` iterations of the outer loop always suffice. -/
def automaton (g0 : Grammar) (S0 : List Char) : Except Fault Builder :=
  match setup g0 S0 with
  | .error e => .error e
  | .ok (g, S, b0) => discover g S (2 ^ itemCount g) 0 b0

/-- Source `for (char x : prod) S.insert(x);`. -/
def insertAll (prod : Str) (S : List Char) : List Char :=
  prod.foldl (fun S x => symInsert x S) S

/-- Source `prod == "#" ? "" : prod`: the epsilon marker becomes the empty right-hand side. -/
def alternative (prod : Str) : Str :=
  if prod = ['#'] then [] else prod

/-- The `for (char c : rhs)` of the reading loop, carrying `prod`, `g` and `S`. -/
def alternatives (lhs : Str) : Str → Str → Grammar × List Char → Str × Grammar × List Char
  | [], prod, st => (prod, st)
  | c :: cs, prod, st =>
    if c = '|' then
      alternatives lhs cs [] (st.1 ++ [(lhs, alternative prod)], insertAll prod st.2)
    else alternatives lhs cs (prod ++ [c]) st

/-- Body of the reading loop of `main` for one input line `s`. When the line has no `'='`,
`eq` is `-1`: `substr(0, eq)` and `substr(eq + 1)` are both the whole line. -/
def readProduction (s : Str) (st : Grammar × List Char) : Grammar × List Char :=
  let lhs := match findChar '=' s with
    | some e => s.take e
    | none => s
  let rhs := match findChar '=' s with
    | some e => s.drop (e + 1)
    | none => s
  let r := alternatives lhs rhs [] st
  (r.2.1 ++ [(lhs, alternative r.1)],
    symInsert (lhs.headD (Char.ofNat 0)) (insertAll r.1 r.2.2))

/-- The reading loop of `main` over the production lines: the globals `g` and `S`. -/
def ingest (lines : List Str) : Grammar × List Char :=
  lines.foldl (fun st s => readProduction s st) ([], [])

/-- Source `main` on the given production lines, up to the end of the discovery loop. -/
def run (lines : List Str) : Except Fault Builder :=
  automaton (ingest lines).1 (ingest lines).2

/-- The states the discovery loop passes through from `b`: each step is one execution of the
body of `for (char X : S)` for an existing state index `i`. -/
inductive Reach (g : Grammar) (S : List Char) (b : Builder) : Builder → Prop where
  | start : Reach g S b b
  | step (b1 b2 : Builder) (i : Nat) (X : Char) :
      Reach g S b b1 → i < b1.C.length → X ∈ S → visit g i X b1 = .ok b2 → Reach g S b b2

/-- All texts `make A B d` with `(A, B)` in `g` and `d <= |B|`. -/
def itemUniverse : Grammar → List Str
  | [] => []
  | p :: ps => (List.range (p.2.length + 1)).map (make p.1 p.2) ++ itemUniverse ps

/-! ## Vocabulary of the specification -/

/-- The text `A` contains no `"->"`. -/
def NoArrow (A : Str) : Prop := ¬ arrow <:+: A

/-- Every left-hand side of `g` is free of `"->"`. -/
def LhsOk (g : Grammar) : Prop := ∀ p ∈ g, NoArrow p.1

/-- Every right-hand side of `g` is free of `'.'`. -/
def RhsOk (g : Grammar) : Prop := ∀ p ∈ g, '.' ∉ p.2

/-- The text `s` is an item of `g`: `make A B d` for a production `(A, B)` and `d <= |B|`. -/
def IsItemOf (g : Grammar) (s : Str) : Prop :=
  ∃ A B d, (A, B) ∈ g ∧ d ≤ B.length ∧ s = make A B d

/-- A well-formed item text: it contains `"->"` followed, somewhere later, by a `'.'`. -/
def WellFormed (s : Str) : Prop :=
  ∃ A R, s = A ++ arrow ++ R ∧ '.' ∈ R

/-- The item `s` has the symbol `X` immediately after its dot, as `parse` reads it. -/
def AfterDot (s : Str) (X : Char) : Prop :=
  ∃ A B d, parse s = .ok (A, B, d) ∧ B[d]? = some X

/-- The item `s` is a reduce item: `parse` finds the dot at the end of the right-hand side. -/
def IsReduce (s : Str) : Prop :=
  ∃ A B d, parse s = .ok (A, B, d) ∧ B[d]? = none


/-- The text `s` is the initial item of a production of `g` whose left-hand side starts with
the character `N` (the test `p.first[0] == B[d]` of `closure`). -/
def Initial (g : Grammar) (N : Char) (s : Str) : Prop :=
  ∃ p ∈ g, p.1.headD (Char.ofNat 0) = N ∧ s = make p.1 p.2 0

/-- The item `it` has an uppercase letter `N` after its dot and `s` is an initial item that
`closure` inserts for `N`. -/
def Wants (g : Grammar) (it s : Str) : Prop :=
  ∃ N, AfterDot it N ∧ N.isUpper = true ∧ Initial g N s

/-- Some item of `v` makes `closure` insert the initial item `s`. -/
def Demands (g : Grammar) (v : List Str) (s : Str) : Prop :=
  ∃ it ∈ v, Wants g it s

/-- Number of productions of `g` whose initial item is not yet in `I`. -/
def missing (g : Grammar) (I : ItemSet) : Nat :=
  g.countP (fun p => decide (make p.1 p.2 0 ∉ I))

/-- An item of `g` whose dot has only crossed characters other than `'.'`; on such a text
`parse` returns the production and the dot position it was made from. -/
def Tracked (g : Grammar) (s : Str) : Prop :=
  ∃ A B d, (A, B) ∈ g ∧ d ≤ B.length ∧ '.' ∉ B.take d ∧ s = make A B d

/-- The item `it` has `X` after its dot, as `parse` reads it, and `s` is the text `goTo`
inserts for it: the same production with the dot one position further right. -/
def Advances (X : Char) (it s : Str) : Prop :=
  ∃ A B d, parse it = .ok (A, B, d) ∧ B[d]? = some X ∧ s = make A B (d + 1)

/-- The text `s` is an item of `g` with the symbol `X` immediately after its dot. -/
def DotBefore (g : Grammar) (s : Str) (X : Char) : Prop :=
  ∃ A B d, (A, B) ∈ g ∧ s = make A B d ∧ B[d]? = some X

/-- The text `s` is an item of `g` with its dot at the end of the right-hand side. -/
def Completed (g : Grammar) (s : Str) : Prop :=
  ∃ A B, (A, B) ∈ g ∧ s = make A B B.length

instance (A : Str) : Decidable (NoArrow A) :=
  inferInstanceAs (Decidable (¬ arrow <:+: A))

instance (g : Grammar) : Decidable (LhsOk g) :=
  inferInstanceAs (Decidable (∀ p ∈ g, NoArrow p.1))

instance (g : Grammar) : Decidable (RhsOk g) :=
  inferInstanceAs (Decidable (∀ p ∈ g, '.' ∉ p.2))

/-- The index map sends the key of every state to its index. -/
def IdxKey (b : Builder) : Prop :=
  ∀ j J, b.C[j]? = some J → mapGet (key J) b.idx = some j

/-- Every entry of the index map is the key of the state it points to. -/
def IdxDom (b : Builder) : Prop :=
  ∀ k v, mapGet k b.idx = some v → ∃ J, b.C[v]? = some J ∧ key J = k

/-- A state as the loop stores it: a non-empty set of tracked items that `closure`
leaves unchanged. -/
def GoodState (g : Grammar) (I : ItemSet) : Prop :=
  IsSet I ∧ (∀ s ∈ I, Tracked g s) ∧ I ≠ [] ∧ closure g I = .ok I

/-- Invariant of the discovery loop. -/
structure Inv (g : Grammar) (b : Builder) : Prop where
  lenT : b.T.length = b.C.length
  pos : 0 < b.C.length
  good : ∀ I ∈ b.C, GoodState g I
  idxKey : IdxKey b
  idxDom : IdxDom b

/-- The row `T[i]` is settled for the symbols in `done` and has no entry for any other
symbol. -/
def RowDone (g : Grammar) (b : Builder) (i : Nat) (done : List Char) : Prop :=
  ∀ X, (X ∈ done → ∃ J, goTo g (b.C.getD i []) X = .ok J ∧
          (J = [] → mapGet X (b.T.getD i []) = none) ∧
          (J ≠ [] → ∃ k, mapGet X (b.T.getD i []) = some k ∧ b.C[k]? = some J)) ∧
        (X ∉ done → mapGet X (b.T.getD i []) = none)

/-- The transition table while the loop is at state `i` with the symbols `done` already
visited: rows below `i` are settled for all of `S`, rows above `i` are empty. -/
def TableInv (g : Grammar) (S : List Char) (b : Builder) (i : Nat) (done : List Char) : Prop :=
  ∀ j, j < b.C.length → RowDone g b j (if j < i then S else if j = i then done else [])

/-- No left-hand or right-hand side of `g` contains the separator `'|'` of `key`. -/
def BarFree (g : Grammar) : Prop := ∀ q ∈ g, '|' ∉ q.1 ∧ '|' ∉ q.2

instance (g : Grammar) : Decidable (BarFree g) :=
  inferInstanceAs (Decidable (∀ q ∈ g, '|' ∉ q.1 ∧ '|' ∉ q.2))

/-- The states are pairwise distinct and the index map sends the key of each to its index. -/
def Deduplicated (b : Builder) : Prop :=
  (∀ i j, i < b.C.length → j < b.C.length → b.C[i]? = b.C[j]? → i = j) ∧
  (∀ j J, b.C[j]? = some J → mapGet (key J) b.idx = some j)

/-- State 0 is `closure({S'->.S})` for the start symbol `start`, and every state is
non-empty and unchanged by `closure`. -/
def ClosureComplete (g : Grammar) (start : Str) (b : Builder) : Prop :=
  (∃ I0, closure g [make (start ++ [Char.ofNat 39]) start 0] = .ok I0 ∧ b.C[0]? = some I0) ∧
  ∀ I ∈ b.C, I ≠ [] ∧ closure g I = .ok I

/-- Every item of every state is `make A B d` for a production `(A, B)` of `g` and `d <= |B|`,
and whenever `goTo` moves the dot of such an item, the dot was before the end of `B`. -/
def DotInside (g : Grammar) (b : Builder) : Prop :=
  ∀ I ∈ b.C, ∀ s ∈ I, IsItemOf g s ∧
    ∀ X t, Advances X s t →
      ∃ A B d, (A, B) ∈ g ∧ d < B.length ∧ s = make A B d ∧ t = make A B (d + 1)

/-- Every entry `T[i][X] = k` was read from `idx` at the key of `goTo(C[i], X)`. -/
def Linked (g : Grammar) (b : Builder) : Prop :=
  ∀ i X k, mapGet X (b.T.getD i []) = some k →
    ∃ J, goTo g (b.C.getD i []) X = .ok J ∧ mapGet (key J) b.idx = some k

/-- Every state but state 0 is the target of a transition from a state of lower index. -/
def Discovered (S : List Char) (b : Builder) : Prop :=
  ∀ k, 0 < k → k < b.C.length →
    ∃ i X, i < k ∧ X ∈ S ∧ mapGet X (b.T.getD i []) = some k

/-- The state `k` is reached from state 0 by a finite path of recorded transitions. -/
inductive Path (b : Builder) : Nat → Prop where
  | root : Path b 0
  | edge (i k : Nat) (X : Char) :
      Path b i → mapGet X (b.T.getD i []) = some k → Path b k

/-- Invariant of the discovery loop behind the breadth-first numbering of the states. -/
structure Bfs (g : Grammar) (S : List Char) (b : Builder) : Prop where
  lenT : b.T.length = b.C.length
  pos : 0 < b.C.length
  linked : Linked g b
  discovered : Discovered S b

/-! ## Lemmas on texts -/

theorem findChar_append_of_not_mem (c : Char) (P Q : Str) (h : c ∉ P) :
    findChar c (P ++ c :: Q) = some P.length := by
  induction P with
  | nil => simp [findChar]
  | cons x xs ih =>
    have hx : x ≠ c := fun e => h (by simp [e])
    have hxs : c ∉ xs := fun e => h (by simp [e])
    simp [findChar, hx, ih hxs]

theorem findChar_isSome_of_mem (c : Char) (l : Str) (h : c ∈ l) :
    ∃ d, findChar c l = some d := by
  induction l with
  | nil => simp at h
  | cons x xs ih =>
    by_cases hx : x = c
    · exact ⟨0, by simp [findChar, hx]⟩
    · have hc : c ∈ xs := by
        rcases List.mem_cons.1 h with e | e
        · exact absurd e.symm hx
        · exact e
      obtain ⟨d, hd⟩ := ih hc
      exact ⟨d + 1, by simp [findChar, hx, hd]⟩

theorem eraseIdx_append_cons (P Q : Str) (c : Char) :
    (P ++ c :: Q).eraseIdx P.length = P ++ Q := by
  induction P with
  | nil => simp
  | cons x xs ih => simp [ih]

theorem findStr_cons (pat : Str) (c : Char) (cs : Str) :
    findStr pat (c :: cs) =
      if pat <+: (c :: cs) then some 0 else (findStr pat cs).map (· + 1) := rfl

theorem make_eq (A B : Str) (d : Nat) :
    make A B d = A ++ (arrow ++ (B.take d ++ '.' :: B.drop d)) := by
  simp [make, List.append_assoc]

theorem findStr_arrow_append (A R : Str) (h : NoArrow A) :
    findStr arrow (A ++ (arrow ++ R)) = some A.length := by
  induction A with
  | nil => simp [findStr, arrow]
  | cons x xs ih =>
    have hxs : NoArrow xs := fun e => h (List.infix_cons e)
    have hnp : ¬ arrow <+: (x :: (xs ++ (arrow ++ R))) := by
      intro hp
      cases xs with
      | nil =>
        simp [arrow, List.cons_prefix_cons] at hp
      | cons y ys =>
        apply h
        simp only [arrow, List.cons_append, List.cons_prefix_cons] at hp
        obtain ⟨h1, h2, _⟩ := hp
        subst h1; subst h2
        exact ⟨[], ys, by simp [arrow]⟩
    rw [List.cons_append, findStr_cons, if_neg hnp, ih hxs]
    simp

theorem findStr_arrow_le (A R : Str) :
    ∃ x, findStr arrow (A ++ (arrow ++ R)) = some x ∧ x ≤ A.length := by
  induction A with
  | nil => exact ⟨0, by simp [findStr, arrow], le_refl _⟩
  | cons a as ih =>
    by_cases hp : arrow <+: (a :: (as ++ (arrow ++ R)))
    · refine ⟨0, ?_, Nat.zero_le _⟩
      rw [List.cons_append, findStr_cons, if_pos hp]
    · obtain ⟨x, hx, hle⟩ := ih
      refine ⟨x + 1, ?_, by simpa using hle⟩
      rw [List.cons_append, findStr_cons, if_neg hp, hx]
      simp

theorem parse_make (A B : Str) (d : Nat) (hA : NoArrow A) (hB : '.' ∉ B.take d) :
    parse (make A B d) = .ok (A, B, (B.take d).length) := by
  have h1 : findStr arrow (make A B d) = some A.length := by
    rw [make_eq]; exact findStr_arrow_append A _ hA
  have h2 : (make A B d).drop (A.length + 2) = B.take d ++ '.' :: B.drop d := by
    rw [make_eq, List.drop_append]
    simp [arrow]
  have h3 : (make A B d).take A.length = A := by
    rw [make_eq]; simp
  have h4 := findChar_append_of_not_mem '.' (B.take d) (B.drop d) hB
  have h5 := eraseIdx_append_cons (B.take d) (B.drop d) '.'
  simp only [parse, h1, h2, h3, h4, h5, List.take_append_drop]

theorem parse_make_of_le (A B : Str) (d : Nat) (hA : NoArrow A) (hB : '.' ∉ B.take d)
    (hd : d ≤ B.length) : parse (make A B d) = .ok (A, B, d) := by
  rw [parse_make A B d hA hB, List.length_take, Nat.min_eq_left hd]

theorem parse_wellFormed (s : Str) (h : WellFormed s) : ∃ r, parse s = .ok r := by
  obtain ⟨A, R, rfl, hdot⟩ := h
  rw [List.append_assoc]
  obtain ⟨x, hx, hle⟩ := findStr_arrow_le A R
  have hmem : '.' ∈ (A ++ (arrow ++ R)).drop (x + 2) := by
    have hsplit : A ++ (arrow ++ R) = (A ++ arrow) ++ R := by simp
    have hlen : x + 2 ≤ (A ++ arrow).length := by simp [arrow]; omega
    rw [hsplit, List.drop_append_of_le_length hlen]
    exact List.mem_append_right _ hdot
  obtain ⟨d, hd⟩ := findChar_isSome_of_mem _ _ hmem
  refine ⟨((A ++ (arrow ++ R)).take x, ((A ++ (arrow ++ R)).drop (x + 2)).eraseIdx d, d), ?_⟩
  simp only [parse, hx, hd]

theorem wellFormed_make (A B : Str) (d : Nat) : WellFormed (make A B d) :=
  ⟨A, B.take d ++ '.' :: B.drop d, by simp [make, List.append_assoc], by simp⟩

/-! ## Lemmas on sets and maps -/

theorem strLe_refl (a : Str) : strLe a a = true := by
  induction a with
  | nil => rfl
  | cons x xs ih => simp [strLe, ih]

theorem strLe_total (a b : Str) : strLe a b = true ∨ strLe b a = true := by
  induction a generalizing b with
  | nil => left; rfl
  | cons x xs ih =>
    cases b with
    | nil => right; rfl
    | cons y ys =>
      simp only [strLe]
      rcases Nat.lt_trichotomy x.toNat y.toNat with h | h | h
      · left; simp [h]
      · have h1 : ¬ x.toNat < y.toNat := by omega
        have h2 : ¬ y.toNat < x.toNat := by omega
        simp only [h1, h2, if_false]
        exact ih ys
      · right; simp [h]

theorem strLe_trans (a b c : Str) (h1 : strLe a b = true) (h2 : strLe b c = true) :
    strLe a c = true := by
  induction a generalizing b c with
  | nil => rfl
  | cons x xs ih =>
    cases b with
    | nil => simp [strLe] at h1
    | cons y ys =>
      cases c with
      | nil => simp [strLe] at h2
      | cons z zs =>
        simp only [strLe] at h1 h2 ⊢
        by_cases hxy : x.toNat < y.toNat
        · by_cases hyz : y.toNat < z.toNat
          · have : x.toNat < z.toNat := by omega
            simp [this]
          · by_cases hzy : z.toNat < y.toNat
            · simp [hyz, hzy] at h2
            · have : x.toNat < z.toNat := by omega
              simp [this]
        · by_cases hyx : y.toNat < x.toNat
          · simp [hxy, hyx] at h1
          · simp only [hxy, hyx, if_false] at h1
            by_cases hyz : y.toNat < z.toNat
            · have : x.toNat < z.toNat := by omega
              simp [this]
            · by_cases hzy : z.toNat < y.toNat
              · simp [hyz, hzy] at h2
              · simp only [hyz, hzy, if_false] at h2
                have e1 : ¬ x.toNat < z.toNat := by omega
                have e2 : ¬ z.toNat < x.toNat := by omega
                simp only [e1, e2, if_false]
                exact ih ys zs h1 h2

theorem char_eq_of_toNat_eq (x y : Char) (h : x.toNat = y.toNat) : x = y := by
  rw [← Char.ofNat_toNat x, ← Char.ofNat_toNat y, h]

theorem strLe_antisymm (a b : Str) (h1 : strLe a b = true) (h2 : strLe b a = true) :
    a = b := by
  induction a generalizing b with
  | nil =>
    cases b with
    | nil => rfl
    | cons y ys => simp [strLe] at h2
  | cons x xs ih =>
    cases b with
    | nil => simp [strLe] at h1
    | cons y ys =>
      simp only [strLe] at h1 h2
      by_cases hxy : x.toNat < y.toNat
      · have : ¬ y.toNat < x.toNat := by omega
        simp [hxy, this] at h2
      · by_cases hyx : y.toNat < x.toNat
        · simp [hxy, hyx] at h1
        · simp only [hxy, hyx, if_false] at h1 h2
          have e : x = y := char_eq_of_toNat_eq x y (by omega)
          rw [e, ih ys h1 h2]

instance strLe_isTotal : IsTotal Str (fun a b => strLe a b = true) := ⟨strLe_total⟩

instance strLe_isTrans : IsTrans Str (fun a b => strLe a b = true) := ⟨strLe_trans⟩

instance strLe_isAntisymm : IsAntisymm Str (fun a b => strLe a b = true) := ⟨strLe_antisymm⟩

theorem isSet_nil : IsSet [] := ⟨List.sorted_nil, List.nodup_nil⟩

theorem isSet_ext (I J : ItemSet) (hI : IsSet I) (hJ : IsSet J)
    (h : ∀ s, s ∈ I ↔ s ∈ J) : I = J :=
  List.eq_of_perm_of_sorted ((List.perm_ext_iff_of_nodup hI.2 hJ.2).2 h) hI.1 hJ.1

theorem mem_setInsert (x s : Str) (I : ItemSet) :
    s ∈ (setInsert x I).1 ↔ s = x ∨ s ∈ I := by
  unfold setInsert
  by_cases hx : x ∈ I
  · rw [if_pos hx]
    constructor
    · intro h; exact Or.inr h
    · rintro (rfl | h)
      · exact hx
      · exact h
  · rw [if_neg hx]
    exact List.mem_orderedInsert _

theorem setInsert_snd (x : Str) (I : ItemSet) : (setInsert x I).2 = true ↔ x ∉ I := by
  unfold setInsert
  by_cases hx : x ∈ I
  · rw [if_pos hx]; simp [hx]
  · rw [if_neg hx]; simp [hx]

theorem setInsert_fst_of_mem (x : Str) (I : ItemSet) (h : x ∈ I) : (setInsert x I).1 = I := by
  unfold setInsert
  rw [if_pos h]

theorem isSet_setInsert (x : Str) (I : ItemSet) (h : IsSet I) : IsSet (setInsert x I).1 := by
  unfold setInsert
  by_cases hx : x ∈ I
  · rw [if_pos hx]; exact h
  · rw [if_neg hx]
    refine ⟨List.Sorted.orderedInsert x I h.1, ?_⟩
    exact (List.perm_orderedInsert _ x I).nodup_iff.2 (List.nodup_cons.2 ⟨hx, h.2⟩)

theorem mapGet_mapSet_self {κ ν : Type} [DecidableEq κ] (k : κ) (v : ν) (m : List (κ × ν)) :
    mapGet k (mapSet k v m) = some v := by
  induction m with
  | nil => simp [mapSet, mapGet]
  | cons e m ih =>
    obtain ⟨k', v'⟩ := e
    by_cases h : k = k'
    · simp [mapSet, mapGet, h]
    · simp [mapSet, mapGet, h, ih]

theorem mapGet_mapSet_of_ne {κ ν : Type} [DecidableEq κ] (k k' : κ) (v : ν)
    (m : List (κ × ν)) (h : k' ≠ k) : mapGet k' (mapSet k v m) = mapGet k' m := by
  induction m with
  | nil => simp [mapSet, mapGet, h]
  | cons e m ih =>
    obtain ⟨k2, v2⟩ := e
    by_cases h2 : k = k2
    · subst h2
      simp [mapSet, mapGet, h]
    · by_cases h3 : k' = k2
      · simp [mapSet, mapGet, h2, h3]
      · simp [mapSet, mapGet, h2, h3, ih]

theorem mapGet_none_all {κ ν : Type} [DecidableEq κ] (m : List (κ × ν))
    (h : ∀ k, mapGet k m = none) : m = [] := by
  cases m with
  | nil => rfl
  | cons e m =>
    obtain ⟨k, v⟩ := e
    have := h k
    simp [mapGet] at this

/-! ## Lemmas on closure -/

theorem expand_mem (N : Char) (g : Grammar) (st : ItemSet × Bool) (s : Str) :
    s ∈ (expand N g st).1 ↔ s ∈ st.1 ∨ Initial g N s := by
  induction g generalizing st with
  | nil => simp [expand, Initial]
  | cons p ps ih =>
    by_cases hp : p.1.headD (Char.ofNat 0) = N
    · simp only [expand, if_pos hp]
      rw [ih, mem_setInsert]
      constructor
      · rintro ((h | h) | ⟨q, hq, hN, hs⟩)
        · exact Or.inr ⟨p, List.mem_cons_self _ _, hp, h⟩
        · exact Or.inl h
        · exact Or.inr ⟨q, List.mem_cons_of_mem _ hq, hN, hs⟩
      · rintro (h | ⟨q, hq, hN, hs⟩)
        · exact Or.inl (Or.inr h)
        · rcases List.mem_cons.1 hq with rfl | hq
          · exact Or.inl (Or.inl hs)
          · exact Or.inr ⟨q, hq, hN, hs⟩
    · simp only [expand, if_neg hp]
      rw [ih]
      constructor
      · rintro (h | ⟨q, hq, hN, hs⟩)
        · exact Or.inl h
        · exact Or.inr ⟨q, List.mem_cons_of_mem _ hq, hN, hs⟩
      · rintro (h | ⟨q, hq, hN, hs⟩)
        · exact Or.inl h
        · rcases List.mem_cons.1 hq with rfl | hq
          · exact absurd hN hp
          · exact Or.inr ⟨q, hq, hN, hs⟩

theorem expand_flag (N : Char) (g : Grammar) (st : ItemSet × Bool) :
    (expand N g st).2 = true ↔ st.2 = true ∨ ∃ s, Initial g N s ∧ s ∉ st.1 := by
  induction g generalizing st with
  | nil => simp [expand, Initial]
  | cons p ps ih =>
    by_cases hp : p.1.headD (Char.ofNat 0) = N
    · simp only [expand, if_pos hp]
      rw [ih]
      by_cases hm : make p.1 p.2 0 ∈ st.1
      · have h2 : (setInsert (make p.1 p.2 0) st.1).2 = false := by
          cases h : (setInsert (make p.1 p.2 0) st.1).2
          · rfl
          · exact absurd hm ((setInsert_snd _ _).1 h)
        simp only [h2, setInsert_fst_of_mem _ _ hm]
        constructor
        · rintro (h | ⟨s, ⟨q, hq, hN, hs⟩, hns⟩)
          · exact Or.inl (by simpa using h)
          · exact Or.inr ⟨s, ⟨q, List.mem_cons_of_mem _ hq, hN, hs⟩, hns⟩
        · rintro (h | ⟨s, ⟨q, hq, hN, hs⟩, hns⟩)
          · exact Or.inl (by simpa using h)
          · rcases List.mem_cons.1 hq with rfl | hq
            · exact absurd (hs ▸ hm) hns
            · exact Or.inr ⟨s, ⟨q, hq, hN, hs⟩, hns⟩
      · have h2 : (setInsert (make p.1 p.2 0) st.1).2 = true := (setInsert_snd _ _).2 hm
        simp only [h2, if_true, true_or, true_iff]
        exact Or.inr ⟨_, ⟨p, List.mem_cons_self _ _, hp, rfl⟩, hm⟩
    · simp only [expand, if_neg hp]
      rw [ih]
      constructor
      · rintro (h | ⟨s, ⟨q, hq, hN, hs⟩, hns⟩)
        · exact Or.inl h
        · exact Or.inr ⟨s, ⟨q, List.mem_cons_of_mem _ hq, hN, hs⟩, hns⟩
      · rintro (h | ⟨s, ⟨q, hq, hN, hs⟩, hns⟩)
        · exact Or.inl h
        · rcases List.mem_cons.1 hq with rfl | hq
          · exact absurd hN hp
          · exact Or.inr ⟨s, ⟨q, hq, hN, hs⟩, hns⟩

theorem expand_false (N : Char) (g : Grammar) (st : ItemSet × Bool)
    (h : (expand N g st).2 = false) : (expand N g st).1 = st.1 := by
  induction g generalizing st with
  | nil => rfl
  | cons p ps ih =>
    by_cases hp : p.1.headD (Char.ofNat 0) = N
    · simp only [expand, if_pos hp] at h ⊢
      have h1 := ih _ h
      rw [h1]
      by_cases hm : make p.1 p.2 0 ∈ st.1
      · exact setInsert_fst_of_mem _ _ hm
      · exfalso
        have h2 : (setInsert (make p.1 p.2 0) st.1).2 = true := (setInsert_snd _ _).2 hm
        have h3 : (expand N ps ((setInsert (make p.1 p.2 0) st.1).1,
            if (setInsert (make p.1 p.2 0) st.1).2 then true else st.2)).2 = true :=
          (expand_flag N ps _).2 (Or.inl (by simp [h2]))
        rw [h] at h3
        exact Bool.noConfusion h3
    · simp only [expand, if_neg hp] at h ⊢
      exact ih _ h

theorem expand_isSet (N : Char) (g : Grammar) (st : ItemSet × Bool) (h : IsSet st.1) :
    IsSet (expand N g st).1 := by
  induction g generalizing st with
  | nil => exact h
  | cons p ps ih =>
    by_cases hp : p.1.headD (Char.ofNat 0) = N
    · simp only [expand, if_pos hp]
      exact ih _ (isSet_setInsert _ _ h)
    · simp only [expand, if_neg hp]
      exact ih _ h

theorem closurePass_cons (g : Grammar) (it : Str) (v : List Str) (st r : ItemSet × Bool)
    (h : closurePass g (it :: v) st = .ok r) :
    ∃ A B d, parse it = .ok (A, B, d) ∧
      ((∃ N, B[d]? = some N ∧ N.isUpper = true ∧ closurePass g v (expand N g st) = .ok r) ∨
       ((∀ N, B[d]? = some N → N.isUpper = false) ∧ closurePass g v st = .ok r)) := by
  simp only [closurePass] at h
  split at h
  · exact absurd h (by simp)
  · rename_i A B d hp
    refine ⟨A, B, d, hp, ?_⟩
    split at h
    · rename_i N hN
      by_cases hu : N.isUpper = true
      · rw [if_pos hu] at h
        exact Or.inl ⟨N, hN, hu, h⟩
      · rw [if_neg hu] at h
        refine Or.inr ⟨fun N1 hN1 => ?_, h⟩
        rw [hN] at hN1
        cases hN1
        simpa using hu
    · rename_i hN
      refine Or.inr ⟨fun N1 hN1 => ?_, h⟩
      rw [hN] at hN1
      cases hN1

theorem wants_of_upper (g : Grammar) (it A B : Str) (d : Nat) (N : Char) (s : Str)
    (hp : parse it = .ok (A, B, d)) (hN : B[d]? = some N) (hu : N.isUpper = true) :
    Wants g it s ↔ Initial g N s := by
  constructor
  · rintro ⟨N1, ⟨A1, B1, d1, hp1, hN1⟩, _, hi⟩
    rw [hp] at hp1
    cases hp1
    rw [hN] at hN1
    cases hN1
    exact hi
  · intro hi
    exact ⟨N, ⟨A, B, d, hp, hN⟩, hu, hi⟩

theorem not_wants (g : Grammar) (it A B : Str) (d : Nat) (s : Str)
    (hp : parse it = .ok (A, B, d)) (hN : ∀ N, B[d]? = some N → N.isUpper = false) :
    ¬ Wants g it s := by
  rintro ⟨N1, ⟨A1, B1, d1, hp1, hN1⟩, hu, _⟩
  rw [hp] at hp1
  cases hp1
  rw [hN N1 hN1] at hu
  exact Bool.noConfusion hu

theorem demands_cons (g : Grammar) (it : Str) (v : List Str) (s : Str) :
    Demands g (it :: v) s ↔ Wants g it s ∨ Demands g v s := by
  simp [Demands]

theorem demands_mono (g : Grammar) (v w : List Str) (s : Str) (h : ∀ x ∈ v, x ∈ w)
    (hd : Demands g v s) : Demands g w s := by
  obtain ⟨it, hit, hw⟩ := hd
  exact ⟨it, h it hit, hw⟩

theorem closurePass_mem (g : Grammar) (v : List Str) (st r : ItemSet × Bool)
    (h : closurePass g v st = .ok r) (s : Str) :
    s ∈ r.1 ↔ s ∈ st.1 ∨ Demands g v s := by
  induction v generalizing st with
  | nil =>
    simp only [closurePass] at h
    cases h
    simp [Demands]
  | cons it v ih =>
    obtain ⟨A, B, d, hp, h1 | h1⟩ := closurePass_cons g it v st r h
    · obtain ⟨N, hN, hu, hr⟩ := h1
      rw [ih _ hr, expand_mem, demands_cons, wants_of_upper g it A B d N s hp hN hu]
      tauto
    · obtain ⟨hN, hr⟩ := h1
      rw [ih _ hr, demands_cons]
      have := not_wants g it A B d s hp hN
      tauto

theorem closurePass_flag (g : Grammar) (v : List Str) (st r : ItemSet × Bool)
    (h : closurePass g v st = .ok r) :
    r.2 = true ↔ st.2 = true ∨ ∃ s, Demands g v s ∧ s ∉ st.1 := by
  induction v generalizing st with
  | nil =>
    simp only [closurePass] at h
    cases h
    simp [Demands]
  | cons it v ih =>
    obtain ⟨A, B, d, hp, h1 | h1⟩ := closurePass_cons g it v st r h
    · obtain ⟨N, hN, hu, hr⟩ := h1
      rw [ih _ hr, expand_flag]
      constructor
      · rintro ((h2 | ⟨s, hi, hns⟩) | ⟨s, hd, hns⟩)
        · exact Or.inl h2
        · exact Or.inr ⟨s, (demands_cons g it v s).2
            (Or.inl ((wants_of_upper g it A B d N s hp hN hu).2 hi)), hns⟩
        · refine Or.inr ⟨s, (demands_cons g it v s).2 (Or.inr hd), fun hs => hns ?_⟩
          exact (expand_mem N g st s).2 (Or.inl hs)
      · rintro (h2 | ⟨s, hd, hns⟩)
        · exact Or.inl (Or.inl h2)
        · rcases (demands_cons g it v s).1 hd with hw | hd
          · exact Or.inl (Or.inr ⟨s, (wants_of_upper g it A B d N s hp hN hu).1 hw, hns⟩)
          · by_cases hs : s ∈ (expand N g st).1
            · rcases (expand_mem N g st s).1 hs with hs | hi
              · exact absurd hs hns
              · exact Or.inl (Or.inr ⟨s, hi, hns⟩)
            · exact Or.inr ⟨s, hd, hs⟩
    · obtain ⟨hN, hr⟩ := h1
      rw [ih _ hr]
      constructor
      · rintro (h2 | ⟨s, hd, hns⟩)
        · exact Or.inl h2
        · exact Or.inr ⟨s, (demands_cons g it v s).2 (Or.inr hd), hns⟩
      · rintro (h2 | ⟨s, hd, hns⟩)
        · exact Or.inl h2
        · rcases (demands_cons g it v s).1 hd with hw | hd
          · exact absurd hw (not_wants g it A B d s hp hN)
          · exact Or.inr ⟨s, hd, hns⟩

theorem closurePass_false (g : Grammar) (v : List Str) (st r : ItemSet × Bool)
    (h : closurePass g v st = .ok r) (hf : r.2 = false) : r.1 = st.1 := by
  induction v generalizing st with
  | nil =>
    simp only [closurePass] at h
    cases h
    rfl
  | cons it v ih =>
    obtain ⟨A, B, d, hp, h1 | h1⟩ := closurePass_cons g it v st r h
    · obtain ⟨N, hN, hu, hr⟩ := h1
      rw [ih _ hr]
      apply expand_false
      cases he : (expand N g st).2
      · rfl
      · have := (closurePass_flag g v _ r hr).2 (Or.inl he)
        rw [hf] at this
        exact Bool.noConfusion this
    · exact ih _ h1.2

theorem closurePass_isSet (g : Grammar) (v : List Str) (st r : ItemSet × Bool)
    (h : closurePass g v st = .ok r) (hs : IsSet st.1) : IsSet r.1 := by
  induction v generalizing st with
  | nil =>
    simp only [closurePass] at h
    cases h
    exact hs
  | cons it v ih =>
    obtain ⟨A, B, d, hp, h1 | h1⟩ := closurePass_cons g it v st r h
    · obtain ⟨N, hN, hu, hr⟩ := h1
      exact ih _ hr (expand_isSet N g st hs)
    · exact ih _ h1.2 hs

theorem closurePass_ok (g : Grammar) (v : List Str) (st : ItemSet × Bool)
    (h : ∀ it ∈ v, ∃ r, parse it = .ok r) : ∃ r, closurePass g v st = .ok r := by
  induction v generalizing st with
  | nil => exact ⟨st, rfl⟩
  | cons it v ih =>
    obtain ⟨⟨A, B, d⟩, hp⟩ := h it (List.mem_cons_self _ _)
    have hv : ∀ x ∈ v, ∃ r, parse x = .ok r := fun x hx => h x (List.mem_cons_of_mem _ hx)
    simp only [closurePass, hp]
    split
    · split
      · exact ih _ hv
      · exact ih _ hv
    · exact ih _ hv

theorem closureLoop_spec (g : Grammar) (n : Nat) (I R : ItemSet)
    (h : closureLoop g n I = .ok R) :
    (∀ s ∈ I, s ∈ R) ∧ (∀ s ∈ R, s ∈ I ∨ Demands g R s) ∧
      closurePass g R (R, false) = .ok (R, false) ∧ (IsSet I → IsSet R) := by
  induction n generalizing I with
  | zero => simp [closureLoop] at h
  | succ n ih =>
    simp only [closureLoop] at h
    split at h
    · exact absurd h (by simp)
    · rename_i I1 c hpass
      have hmem := closurePass_mem g I (I, false) (I1, c) hpass
      by_cases hc : c = true
      · rw [if_pos hc] at h
        obtain ⟨h1, h2, h3, h4⟩ := ih I1 h
        have hsub : ∀ s ∈ I, s ∈ I1 := fun s hs => (hmem s).2 (Or.inl hs)
        refine ⟨fun s hs => h1 s (hsub s hs), ?_, h3, ?_⟩
        · intro s hs
          rcases h2 s hs with hs1 | hd
          · rcases (hmem s).1 hs1 with hs0 | hd
            · exact Or.inl hs0
            · exact Or.inr (demands_mono g I R s (fun x hx => h1 x (hsub x hx)) hd)
          · exact Or.inr hd
        · intro hI
          exact h4 (closurePass_isSet g I (I, false) (I1, c) hpass hI)
      · rw [if_neg hc] at h
        have hc2 : c = false := by simpa using hc
        subst hc2
        have hR : I1 = R := by simpa using h
        subst hR
        have hI : I1 = I := closurePass_false g I (I, false) (I1, false) hpass rfl
        subst hI
        exact ⟨fun s hs => hs, fun s hs => Or.inl hs, hpass, fun h => h⟩

theorem countP_lt_of_imp {α : Type} (P Q : α → Bool) (l : List α)
    (h : ∀ x ∈ l, P x = true → Q x = true) (hx : ∃ x ∈ l, Q x = true ∧ P x = false) :
    l.countP P < l.countP Q := by
  induction l with
  | nil =>
    obtain ⟨x, hx, _⟩ := hx
    simp at hx
  | cons a l ih =>
    have hl : ∀ x ∈ l, P x = true → Q x = true := fun x hx => h x (List.mem_cons_of_mem _ hx)
    have hmono : l.countP P ≤ l.countP Q := List.countP_mono_left hl
    have ha := h a (List.mem_cons_self _ _)
    obtain ⟨x, hxm, hQ, hP⟩ := hx
    rw [List.countP_cons, List.countP_cons]
    rcases List.mem_cons.1 hxm with rfl | hxl
    · simp only [hQ, hP, if_true]
      simp
      omega
    · have := ih hl ⟨x, hxl, hQ, hP⟩
      cases hPa : P a
      · simp
        omega
      · simp [ha hPa]
        omega

theorem missing_lt (g : Grammar) (I I1 : ItemSet) (hsub : ∀ s ∈ I, s ∈ I1)
    (hnew : ∃ p ∈ g, make p.1 p.2 0 ∉ I ∧ make p.1 p.2 0 ∈ I1) :
    missing g I1 < missing g I := by
  unfold missing
  apply countP_lt_of_imp
  · intro p _ hp
    simp only [decide_eq_true_eq] at hp ⊢
    exact fun hm => hp (hsub _ hm)
  · obtain ⟨p, hp, h1, h2⟩ := hnew
    exact ⟨p, hp, by simpa using h1, by simpa using h2⟩

theorem closureLoop_fuel (g : Grammar) (n : Nat) (I : ItemSet)
    (hw : ∀ it ∈ I, ∃ r, parse it = .ok r) (hn : missing g I < n) :
    ∃ R, closureLoop g n I = .ok R := by
  induction n generalizing I with
  | zero => omega
  | succ n ih =>
    obtain ⟨⟨I1, c⟩, hpass⟩ := closurePass_ok g I (I, false) hw
    have hmem := closurePass_mem g I (I, false) (I1, c) hpass
    simp only [closureLoop, hpass]
    by_cases hc : c = true
    · rw [if_pos hc]
      have hflag := (closurePass_flag g I (I, false) (I1, c) hpass).1 hc
      rcases hflag with hflag | ⟨s, hd, hns⟩
      · exact Bool.noConfusion hflag
      · have hs1 : s ∈ I1 := (hmem s).2 (Or.inr hd)
        obtain ⟨it, _, N, _, _, p, hp, _, hs⟩ := hd
        have hlt := missing_lt g I I1 (fun x hx => (hmem x).2 (Or.inl hx))
          ⟨p, hp, hs ▸ hns, hs ▸ hs1⟩
        apply ih
        · intro x hx
          rcases (hmem x).1 hx with hx0 | ⟨_, _, _, _, _, q, _, _, hxq⟩
          · exact hw x hx0
          · rw [hxq]
            exact parse_wellFormed _ (wellFormed_make _ _ _)
        · omega
    · rw [if_neg hc]
      exact ⟨I1, rfl⟩

theorem closure_ok (g : Grammar) (I : ItemSet) (hw : ∀ it ∈ I, ∃ r, parse it = .ok r) :
    ∃ R, closure g I = .ok R := by
  apply closureLoop_fuel g _ I hw
  have : missing g I ≤ g.length := List.countP_le_length _
  omega

theorem closure_closed (g : Grammar) (I R : ItemSet) (h : closure g I = .ok R) :
    closure g R = .ok R := by
  have hc := (closureLoop_spec g _ I R h).2.2.1
  simp [closure, closureLoop, hc]

theorem tracked_parse (g : Grammar) (hl : LhsOk g) (s : Str) (h : Tracked g s) :
    ∃ A B d, (A, B) ∈ g ∧ d ≤ B.length ∧ '.' ∉ B.take d ∧ s = make A B d ∧
      parse s = .ok (A, B, d) := by
  obtain ⟨A, B, d, hm, hd, hdot, rfl⟩ := h
  exact ⟨A, B, d, hm, hd, hdot, rfl, parse_make_of_le A B d (hl _ hm) hdot hd⟩

theorem tracked_initial (g : Grammar) (N : Char) (s : Str) (h : Initial g N s) :
    Tracked g s := by
  obtain ⟨p, hp, _, rfl⟩ := h
  exact ⟨p.1, p.2, 0, hp, Nat.zero_le _, by simp, rfl⟩

theorem closure_tracked (g : Grammar) (I R : ItemSet) (h : closure g I = .ok R)
    (hI : ∀ s ∈ I, Tracked g s) : ∀ s ∈ R, Tracked g s := by
  intro s hs
  rcases (closureLoop_spec g _ I R h).2.1 s hs with h0 | ⟨_, _, N, _, _, hi⟩
  · exact hI s h0
  · exact tracked_initial g N s hi

/-! ## Lemmas on goTo -/

theorem moved_cons (X : Char) (it : Str) (I : List Str) (J J1 : ItemSet)
    (h : moved X (it :: I) J = .ok J1) :
    ∃ A B d, parse it = .ok (A, B, d) ∧
      ((B[d]? = some X ∧ moved X I (setInsert (make A B (d + 1)) J).1 = .ok J1) ∨
       (B[d]? ≠ some X ∧ moved X I J = .ok J1)) := by
  simp only [moved] at h
  split at h
  · exact absurd h (by simp)
  · rename_i A B d hp
    refine ⟨A, B, d, hp, ?_⟩
    by_cases hX : B[d]? = some X
    · rw [if_pos hX] at h
      exact Or.inl ⟨hX, h⟩
    · rw [if_neg hX] at h
      exact Or.inr ⟨hX, h⟩

theorem moved_mem (X : Char) (I : List Str) (J J1 : ItemSet) (h : moved X I J = .ok J1)
    (s : Str) : s ∈ J1 ↔ s ∈ J ∨ ∃ it ∈ I, Advances X it s := by
  induction I generalizing J with
  | nil =>
    simp only [moved] at h
    cases h
    simp
  | cons it I ih =>
    obtain ⟨A, B, d, hp, h1 | h1⟩ := moved_cons X it I J J1 h
    · obtain ⟨hX, hr⟩ := h1
      rw [ih _ hr, mem_setInsert]
      constructor
      · rintro ((h2 | h2) | ⟨x, hx, ha⟩)
        · exact Or.inr ⟨it, List.mem_cons_self _ _, A, B, d, hp, hX, h2⟩
        · exact Or.inl h2
        · exact Or.inr ⟨x, List.mem_cons_of_mem _ hx, ha⟩
      · rintro (h2 | ⟨x, hx, ha⟩)
        · exact Or.inl (Or.inr h2)
        · rcases List.mem_cons.1 hx with rfl | hx
          · obtain ⟨A1, B1, d1, hp1, _, hs⟩ := ha
            rw [hp] at hp1
            cases hp1
            exact Or.inl (Or.inl hs)
          · exact Or.inr ⟨x, hx, ha⟩
    · obtain ⟨hX, hr⟩ := h1
      rw [ih _ hr]
      constructor
      · rintro (h2 | ⟨x, hx, ha⟩)
        · exact Or.inl h2
        · exact Or.inr ⟨x, List.mem_cons_of_mem _ hx, ha⟩
      · rintro (h2 | ⟨x, hx, ha⟩)
        · exact Or.inl h2
        · rcases List.mem_cons.1 hx with rfl | hx
          · obtain ⟨A1, B1, d1, hp1, hX1, _⟩ := ha
            rw [hp] at hp1
            cases hp1
            exact absurd hX1 hX
          · exact Or.inr ⟨x, hx, ha⟩

theorem moved_isSet (X : Char) (I : List Str) (J J1 : ItemSet) (h : moved X I J = .ok J1)
    (hJ : IsSet J) : IsSet J1 := by
  induction I generalizing J with
  | nil =>
    simp only [moved] at h
    cases h
    exact hJ
  | cons it I ih =>
    obtain ⟨A, B, d, hp, h1 | h1⟩ := moved_cons X it I J J1 h
    · exact ih _ h1.2 (isSet_setInsert _ _ hJ)
    · exact ih _ h1.2 hJ

theorem moved_ok (X : Char) (I : List Str) (J : ItemSet)
    (h : ∀ it ∈ I, ∃ r, parse it = .ok r) : ∃ J1, moved X I J = .ok J1 := by
  induction I generalizing J with
  | nil => exact ⟨J, rfl⟩
  | cons it I ih =>
    obtain ⟨⟨A, B, d⟩, hp⟩ := h it (List.mem_cons_self _ _)
    have hI : ∀ x ∈ I, ∃ r, parse x = .ok r := fun x hx => h x (List.mem_cons_of_mem _ hx)
    simp only [moved, hp]
    split
    · exact ih _ hI
    · exact ih _ hI

theorem goTo_cases (g : Grammar) (I R : ItemSet) (X : Char) (h : goTo g I X = .ok R) :
    ∃ J, moved X I [] = .ok J ∧ ((J = [] ∧ R = []) ∨ (J ≠ [] ∧ closure g J = .ok R)) := by
  simp only [goTo] at h
  split at h
  · exact absurd h (by simp)
  · rename_i J hJ
    refine ⟨J, hJ, ?_⟩
    by_cases hj : J = []
    · rw [if_pos hj] at h
      exact Or.inl ⟨hj, by simpa using h.symm⟩
    · rw [if_neg hj] at h
      exact Or.inr ⟨hj, h⟩

theorem goTo_ok (g : Grammar) (I : ItemSet) (X : Char)
    (h : ∀ it ∈ I, ∃ r, parse it = .ok r) : ∃ R, goTo g I X = .ok R := by
  obtain ⟨J, hJ⟩ := moved_ok X I [] h
  simp only [goTo, hJ]
  by_cases hj : J = []
  · rw [if_pos hj]
    exact ⟨[], rfl⟩
  · rw [if_neg hj]
    apply closure_ok
    intro it hit
    rcases (moved_mem X I [] J hJ it).1 hit with h0 | ⟨x, _, A, B, d, _, _, hs⟩
    · simp at h0
    · rw [hs]
      exact parse_wellFormed _ (wellFormed_make _ _ _)

theorem getElem?_lt {α : Type} {l : List α} {k : Nat} {a : α}
    (h : l[k]? = some a) : k < l.length :=
  (List.getElem?_eq_some.1 h).1

theorem closure_ne_nil (g : Grammar) (J R : ItemSet) (h : closure g J = .ok R) (hJ : J ≠ []) :
    R ≠ [] := by
  obtain ⟨x, hx⟩ := List.exists_mem_of_ne_nil J hJ
  exact List.ne_nil_of_mem ((closureLoop_spec g _ J R h).1 x hx)

/-! ## Items of a grammar -/

theorem tracked_of_itemOf (g : Grammar) (hr : RhsOk g) (s : Str) (h : IsItemOf g s) :
    Tracked g s := by
  obtain ⟨A, B, d, hm, hd, rfl⟩ := h
  exact ⟨A, B, d, hm, hd, fun hdot => hr _ hm (List.mem_of_mem_take hdot), rfl⟩

theorem itemOf_of_tracked (g : Grammar) (s : Str) (h : Tracked g s) : IsItemOf g s := by
  obtain ⟨A, B, d, hm, hd, _, rfl⟩ := h
  exact ⟨A, B, d, hm, hd, rfl⟩

theorem parse_item (g : Grammar) (hl : LhsOk g) (hr : RhsOk g) (A B : Str) (d : Nat)
    (hm : (A, B) ∈ g) (hd : d ≤ B.length) : parse (make A B d) = .ok (A, B, d) :=
  parse_make_of_le A B d (hl _ hm) (fun hdot => hr _ hm (List.mem_of_mem_take hdot)) hd

theorem lt_of_getElem?_eq_some (B : Str) (d : Nat) (X : Char) (h : B[d]? = some X) :
    d < B.length := by
  obtain ⟨hd, _⟩ := List.getElem?_eq_some.1 h
  exact hd

theorem afterDot_of_dotBefore (g : Grammar) (hl : LhsOk g) (hr : RhsOk g) (s : Str) (X : Char)
    (h : DotBefore g s X) : AfterDot s X := by
  obtain ⟨A, B, d, hm, rfl, hX⟩ := h
  exact ⟨A, B, d, parse_item g hl hr A B d hm (Nat.le_of_lt (lt_of_getElem?_eq_some B d X hX)),
    hX⟩

theorem dotBefore_of_afterDot (g : Grammar) (hl : LhsOk g) (hr : RhsOk g) (s : Str) (X : Char)
    (hs : IsItemOf g s) (h : AfterDot s X) : DotBefore g s X := by
  obtain ⟨A, B, d, hm, hd, rfl⟩ := hs
  obtain ⟨A1, B1, d1, hp, hX⟩ := h
  rw [parse_item g hl hr A B d hm hd] at hp
  cases hp
  exact ⟨A, B, d, hm, rfl, hX⟩

/-! ## Lemmas on the discovery loop -/

theorem visit_cases (g : Grammar) (i : Nat) (X : Char) (b b1 : Builder)
    (h : visit g i X b = .ok b1) :
    ∃ J, goTo g (b.C.getD i []) X = .ok J ∧
      ((J = [] ∧ b1 = b) ∨
       (J ≠ [] ∧ mapGet (key J) b.idx = none ∧
          b1 = { C := b.C ++ [J],
                 T := (b.T ++ [[]]).set i (mapSet X b.C.length ((b.T ++ [[]]).getD i [])),
                 idx := mapSet (key J) b.C.length b.idx }) ∨
       (J ≠ [] ∧ ∃ v, mapGet (key J) b.idx = some v ∧
          b1 = { b with T := b.T.set i (mapSet X v (b.T.getD i [])) })) := by
  simp only [visit] at h
  split at h
  · exact absurd h (by simp)
  · rename_i J hJ
    refine ⟨J, hJ, ?_⟩
    by_cases hj : J = []
    · rw [if_pos hj] at h
      exact Or.inl ⟨hj, by simpa using h.symm⟩
    · rw [if_neg hj] at h
      cases hk : mapGet (key J) b.idx with
      | none =>
        simp only [hk, Option.isNone_none, if_true, mapGet_mapSet_self, Option.getD_some] at h
        exact Or.inr (Or.inl ⟨hj, rfl, by simpa using h.symm⟩)
      | some v =>
        simp only [hk, Option.isNone_some, Bool.false_eq_true, if_false, Option.getD_some] at h
        exact Or.inr (Or.inr ⟨hj, v, rfl, by simpa using h.symm⟩)

theorem visit_len (g : Grammar) (i : Nat) (X : Char) (b b1 : Builder)
    (h : visit g i X b = .ok b1) : b.C.length ≤ b1.C.length := by
  obtain ⟨J, _, ⟨_, rfl⟩ | ⟨_, _, rfl⟩ | ⟨_, v, _, rfl⟩⟩ := visit_cases g i X b b1 h
  · exact le_refl _
  · simp
  · exact le_refl _

theorem visit_idxKey (g : Grammar) (i : Nat) (X : Char) (b b1 : Builder)
    (h : visit g i X b = .ok b1) (hk : IdxKey b) : IdxKey b1 := by
  obtain ⟨J, _, ⟨_, rfl⟩ | ⟨_, hnone, rfl⟩ | ⟨_, v, _, rfl⟩⟩ := visit_cases g i X b b1 h
  · exact hk
  · intro j J1 hj
    simp only at hj ⊢
    rcases Nat.lt_trichotomy j b.C.length with hlt | heq | hgt
    · rw [List.getElem?_append_left hlt] at hj
      have h1 := hk j J1 hj
      have hne : key J1 ≠ key J := fun e => by
        rw [e, hnone] at h1
        cases h1
      rw [mapGet_mapSet_of_ne _ _ _ _ hne]
      exact h1
    · subst heq
      rw [List.getElem?_concat_length] at hj
      cases hj
      exact mapGet_mapSet_self _ _ _
    · rw [List.getElem?_eq_none (by simp; omega)] at hj
      cases hj
  · exact hk

theorem visit_idxDom (g : Grammar) (i : Nat) (X : Char) (b b1 : Builder)
    (h : visit g i X b = .ok b1) (hk : IdxDom b) : IdxDom b1 := by
  obtain ⟨J, _, ⟨_, rfl⟩ | ⟨_, hnone, rfl⟩ | ⟨_, v, _, rfl⟩⟩ := visit_cases g i X b b1 h
  · exact hk
  · intro k v hv
    simp only at hv ⊢
    by_cases hkk : k = key J
    · subst hkk
      rw [mapGet_mapSet_self] at hv
      cases hv
      exact ⟨J, List.getElem?_concat_length _ _, rfl⟩
    · rw [mapGet_mapSet_of_ne _ _ _ _ hkk] at hv
      obtain ⟨J1, hJ1, hkey⟩ := hk k v hv
      refine ⟨J1, ?_, hkey⟩
      rw [List.getElem?_append_left (getElem?_lt hJ1)]
      exact hJ1
  · exact hk

theorem visit_shape (g : Grammar) (i : Nat) (X : Char) (b b1 : Builder)
    (h : visit g i X b = .ok b1) (hs : b.T.length = b.C.length ∧ 0 < b.C.length) :
    b1.T.length = b1.C.length ∧ 0 < b1.C.length := by
  obtain ⟨J, _, ⟨_, rfl⟩ | ⟨_, hnone, rfl⟩ | ⟨_, v, _, rfl⟩⟩ := visit_cases g i X b b1 h
  · exact hs
  · simp [hs.1]
  · simpa using hs

theorem make_succ_of_dot (A B : Str) (d : Nat) (h : B[d]? = some '.') :
    make A B (d + 1) = make A B d := by
  obtain ⟨hd, hB⟩ := List.getElem?_eq_some.1 h
  rw [make_eq, make_eq, List.take_succ, h, List.drop_eq_getElem_cons hd, hB]
  simp

theorem tracked_advances (g : Grammar) (hl : LhsOk g) (X : Char) (it s : Str)
    (ht : Tracked g it) (ha : Advances X it s) : Tracked g s := by
  obtain ⟨A, B, d, hm, hd, hdot, hit, hp⟩ := tracked_parse g hl it ht
  obtain ⟨A1, B1, d1, hp1, hX, hs⟩ := ha
  rw [hp] at hp1
  cases hp1
  have hlt : d < B.length := (List.getElem?_eq_some.1 hX).1
  by_cases hXd : X = '.'
  · subst hXd
    rw [hs, make_succ_of_dot A B d hX, ← hit]
    exact ht
  · refine ⟨A, B, d + 1, hm, hlt, ?_, hs⟩
    rw [List.take_succ, hX]
    simp only [Option.toList_some, List.mem_append, List.mem_singleton, not_or]
    exact ⟨hdot, fun e => hXd e.symm⟩

theorem goTo_good (g : Grammar) (hl : LhsOk g) (I J : ItemSet) (X : Char)
    (hI : ∀ s ∈ I, Tracked g s) (h : goTo g I X = .ok J) (hJ : J ≠ []) : GoodState g J := by
  obtain ⟨J0, hJ0, ⟨_, hnil⟩ | ⟨hne, hc⟩⟩ := goTo_cases g I J X h
  · exact absurd hnil hJ
  · have hT0 : ∀ s ∈ J0, Tracked g s := by
      intro s hs
      rcases (moved_mem X I [] J0 hJ0 s).1 hs with h0 | ⟨it, hit, ha⟩
      · simp at h0
      · exact tracked_advances g hl X it s (hI it hit) ha
    exact ⟨(closureLoop_spec g _ J0 J hc).2.2.2 (moved_isSet X I [] J0 hJ0 isSet_nil),
      closure_tracked g J0 J hc hT0, hJ, closure_closed g J0 J hc⟩

theorem mem_of_getD_ne (Cs : List ItemSet) (i : Nat) (s : Str) (h : s ∈ Cs.getD i []) :
    Cs.getD i [] ∈ Cs := by
  rw [List.getD_eq_getElem?_getD] at h ⊢
  cases hi : Cs[i]? with
  | none => rw [hi] at h; simp at h
  | some I => exact List.mem_iff_getElem?.2 ⟨i, by simpa using hi⟩

theorem visit_inv (g : Grammar) (hl : LhsOk g) (i : Nat) (X : Char) (b b1 : Builder)
    (h : visit g i X b = .ok b1) (hinv : Inv g b) : Inv g b1 := by
  have hshape := visit_shape g i X b b1 h ⟨hinv.lenT, hinv.pos⟩
  refine ⟨hshape.1, hshape.2, ?_, visit_idxKey g i X b b1 h hinv.idxKey,
    visit_idxDom g i X b b1 h hinv.idxDom⟩
  obtain ⟨J, hJ, ⟨_, rfl⟩ | ⟨hne, _, rfl⟩ | ⟨_, v, _, rfl⟩⟩ := visit_cases g i X b b1 h
  · exact hinv.good
  · intro I hI
    simp only [List.mem_append, List.mem_singleton] at hI
    rcases hI with hI | rfl
    · exact hinv.good I hI
    · apply goTo_good g hl _ _ X _ hJ hne
      intro s hs
      exact (hinv.good _ (mem_of_getD_ne b.C i s hs)).2.1 s hs
  · exact hinv.good

theorem visit_ok (g : Grammar) (hl : LhsOk g) (i : Nat) (X : Char) (b : Builder)
    (hinv : Inv g b) : ∃ b1, visit g i X b = .ok b1 := by
  have hP : ∀ s ∈ b.C.getD i [], ∃ r, parse s = .ok r := by
    intro s hs
    have ht := (hinv.good _ (mem_of_getD_ne b.C i s hs)).2.1 s hs
    obtain ⟨A, B, d, _, _, _, _, hp⟩ := tracked_parse g hl s ht
    exact ⟨_, hp⟩
  obtain ⟨J, hJ⟩ := goTo_ok g (b.C.getD i []) X hP
  simp only [visit, hJ]
  by_cases hj : J = []
  · rw [if_pos hj]
    exact ⟨_, rfl⟩
  · rw [if_neg hj]
    exact ⟨_, rfl⟩

theorem forSymbols_inv (g : Grammar) (hl : LhsOk g) (i : Nat) (xs : List Char)
    (b b1 : Builder) (h : forSymbols g i xs b = .ok b1) (hinv : Inv g b) : Inv g b1 := by
  induction xs generalizing b with
  | nil =>
    simp only [forSymbols] at h
    cases h
    exact hinv
  | cons X xs ih =>
    simp only [forSymbols] at h
    split at h
    · exact absurd h (by simp)
    · rename_i b2 hv
      exact ih b2 h (visit_inv g hl i X b b2 hv hinv)

theorem forSymbols_ok (g : Grammar) (hl : LhsOk g) (i : Nat) (xs : List Char) (b : Builder)
    (hinv : Inv g b) : ∃ b1, forSymbols g i xs b = .ok b1 := by
  induction xs generalizing b with
  | nil => exact ⟨b, rfl⟩
  | cons X xs ih =>
    obtain ⟨b2, hv⟩ := visit_ok g hl i X b hinv
    simp only [forSymbols, hv]
    exact ih b2 (visit_inv g hl i X b b2 hv hinv)

theorem forSymbols_reach (g : Grammar) (S : List Char) (b0 : Builder) (i : Nat)
    (xs : List Char) (b b1 : Builder) (h : forSymbols g i xs b = .ok b1)
    (hxs : ∀ X ∈ xs, X ∈ S) (hi : i < b.C.length) (hr : Reach g S b0 b) :
    Reach g S b0 b1 ∧ b.C.length ≤ b1.C.length := by
  induction xs generalizing b with
  | nil =>
    simp only [forSymbols] at h
    cases h
    exact ⟨hr, le_refl _⟩
  | cons X xs ih =>
    simp only [forSymbols] at h
    split at h
    · exact absurd h (by simp)
    · rename_i b2 hv
      have hlen := visit_len g i X b b2 hv
      have := ih b2 h (fun Y hY => hxs Y (List.mem_cons_of_mem _ hY)) (by omega)
        (Reach.step b b2 i X hr hi (hxs X (List.mem_cons_self _ _)) hv)
      exact ⟨this.1, by omega⟩

theorem discover_reach (g : Grammar) (S : List Char) (b0 : Builder) (n i : Nat)
    (b b1 : Builder) (h : discover g S n i b = .ok b1) (hr : Reach g S b0 b) :
    Reach g S b0 b1 := by
  induction n generalizing i b with
  | zero =>
    simp only [discover] at h
    split at h
    · exact absurd h (by simp)
    · cases h
      exact hr
  | succ n ih =>
    simp only [discover] at h
    split at h
    · rename_i hi
      split at h
      · exact absurd h (by simp)
      · rename_i b2 hf
        exact ih (i + 1) b2 h (forSymbols_reach g S b0 i S b b2 hf (fun _ hX => hX) hi hr).1
    · cases h
      exact hr

theorem reach_inv (g : Grammar) (hl : LhsOk g) (S : List Char) (b0 b : Builder)
    (hr : Reach g S b0 b) (h0 : Inv g b0) : Inv g b := by
  induction hr with
  | start => exact h0
  | step b1 b2 i X _ _ _ hv ih => exact visit_inv g hl i X b1 b2 hv ih

theorem reach_idxKey (g : Grammar) (S : List Char) (b0 b : Builder)
    (hr : Reach g S b0 b) (h0 : IdxKey b0) : IdxKey b := by
  induction hr with
  | start => exact h0
  | step b1 b2 i X _ _ _ hv ih => exact visit_idxKey g i X b1 b2 hv ih

theorem idxKey_injective (b : Builder) (hk : IdxKey b) (i j : Nat) (hi : i < b.C.length)
    (h : b.C[i]? = b.C[j]?) : i = j := by
  have h1 := hk i b.C[i] (List.getElem?_eq_getElem hi)
  have h2 := hk j b.C[i] (by rw [← h]; exact List.getElem?_eq_getElem hi)
  rw [h1] at h2
  exact Option.some.inj h2

theorem idxKey_nodup (b : Builder) (hk : IdxKey b) : b.C.Nodup := by
  rw [List.nodup_iff_getElem?_ne_getElem?]
  intro i j hij hj heq
  have := idxKey_injective b hk i j (by omega) heq
  omega

theorem length_itemUniverse (g : Grammar) : (itemUniverse g).length = itemCount g := by
  induction g with
  | nil => rfl
  | cons p ps ih => simp [itemUniverse, itemCount, ih]

theorem mem_itemUniverse (g : Grammar) (s : Str) (h : IsItemOf g s) : s ∈ itemUniverse g := by
  obtain ⟨A, B, d, hm, hd, rfl⟩ := h
  induction g with
  | nil => simp at hm
  | cons p ps ih =>
    simp only [itemUniverse, List.mem_append, List.mem_map, List.mem_range]
    rcases List.mem_cons.1 hm with rfl | hm
    · exact Or.inl ⟨d, by simp; omega, rfl⟩
    · exact Or.inr (ih hm)

theorem card_sets_le (U : List Str) (Cs : List ItemSet) (hnd : Cs.Nodup)
    (hset : ∀ I ∈ Cs, IsSet I) (hsub : ∀ I ∈ Cs, ∀ s ∈ I, s ∈ U) :
    Cs.length ≤ 2 ^ U.length := by
  have hinj : ∀ x ∈ Cs, ∀ y ∈ Cs, x.toFinset = y.toFinset → x = y := by
    intro x hx y hy hxy
    apply isSet_ext x y (hset x hx) (hset y hy)
    intro s
    rw [← List.mem_toFinset, ← List.mem_toFinset, hxy]
  have hnd2 : (Cs.map List.toFinset).Nodup := List.Nodup.map_on hinj hnd
  have hsubset : (Cs.map List.toFinset).toFinset ⊆ U.toFinset.powerset := by
    intro F hF
    rw [List.mem_toFinset, List.mem_map] at hF
    obtain ⟨I, hI, rfl⟩ := hF
    rw [Finset.mem_powerset]
    intro s hs
    rw [List.mem_toFinset] at hs ⊢
    exact hsub I hI s hs
  have h1 := Finset.card_le_card hsubset
  rw [List.toFinset_card_of_nodup hnd2, List.length_map, Finset.card_powerset] at h1
  exact le_trans h1 (Nat.pow_le_pow_right (by decide) (List.toFinset_card_le U))

theorem inv_card (g : Grammar) (b : Builder) (hinv : Inv g b) :
    b.C.length ≤ 2 ^ itemCount g := by
  rw [← length_itemUniverse]
  apply card_sets_le _ _ (idxKey_nodup b hinv.idxKey)
  · exact fun I hI => (hinv.good I hI).1
  · intro I hI s hs
    exact mem_itemUniverse g s (itemOf_of_tracked g s ((hinv.good I hI).2.1 s hs))

theorem discover_ok (g : Grammar) (hl : LhsOk g) (S : List Char) (n i : Nat) (b : Builder)
    (hinv : Inv g b) (hn : 2 ^ itemCount g ≤ n + i) : ∃ b1, discover g S n i b = .ok b1 := by
  induction n generalizing i b with
  | zero =>
    have := inv_card g b hinv
    simp only [discover]
    rw [if_neg (by omega)]
    exact ⟨b, rfl⟩
  | succ n ih =>
    simp only [discover]
    by_cases hi : i < b.C.length
    · rw [if_pos hi]
      obtain ⟨b2, hf⟩ := forSymbols_ok g hl i S b hinv
      simp only [hf]
      exact ih (i + 1) b2 (forSymbols_inv g hl i S b b2 hf hinv) (by omega)
    · rw [if_neg hi]
      exact ⟨b, rfl⟩

/-! ## Lemmas on the initial state -/

theorem noArrow_concat (A : Str) (c : Char) (hA : NoArrow A) (hc : c ≠ '>') :
    NoArrow (A ++ [c]) := by
  induction A with
  | nil =>
    intro h
    have := List.IsInfix.length_le h
    simp [arrow] at this
  | cons x xs ih =>
    have hxs : NoArrow xs := fun e => hA (List.infix_cons e)
    intro h
    rw [List.cons_append, List.infix_cons_iff] at h
    rcases h with h | h
    · cases xs with
      | nil =>
        simp only [arrow, List.nil_append, List.cons_prefix_cons] at h
        exact hc h.2.1.symm
      | cons y ys =>
        simp only [arrow, List.cons_append, List.cons_prefix_cons] at h
        obtain ⟨h1, h2, _⟩ := h
        apply hA
        rw [← h1, ← h2]
        exact ⟨[], ys, by simp [arrow]⟩
    · exact ih hxs h

theorem setup_cases (g0 : Grammar) (S0 : List Char) (g : Grammar) (S : List Char)
    (b0 : Builder) (h : setup g0 S0 = .ok (g, S, b0)) :
    ∃ start rhs rest I0, g0 = (start, rhs) :: rest ∧
      g = (start ++ [Char.ofNat 39], start) :: g0 ∧
      S = symInsert (start.headD (Char.ofNat 0)) S0 ∧
      closure g [make (start ++ [Char.ofNat 39]) start 0] = .ok I0 ∧
      b0 = { C := [I0], T := [[]], idx := mapSet (key I0) 0 [] } := by
  cases g0 with
  | nil => simp [setup] at h
  | cons p rest =>
    obtain ⟨start, rhs⟩ := p
    simp only [setup] at h
    split at h
    · exact absurd h (by simp)
    · rename_i I0 hI0
      simp only [Except.ok.injEq, Prod.mk.injEq] at h
      obtain ⟨h1, h2, h3⟩ := h
      subst h1
      exact ⟨start, rhs, rest, I0, rfl, rfl, h2.symm, hI0, h3.symm⟩

theorem setup_ok (p : Str × Str) (ps : Grammar) (S0 : List Char) :
    ∃ g S b0, setup (p :: ps) S0 = .ok (g, S, b0) := by
  obtain ⟨start, rhs⟩ := p
  obtain ⟨I0, hI0⟩ := closure_ok ((start ++ [Char.ofNat 39], start) :: (start, rhs) :: ps)
    [make (start ++ [Char.ofNat 39]) start 0] (by
      intro it hit
      rw [List.mem_singleton] at hit
      rw [hit]
      exact parse_wellFormed _ (wellFormed_make _ _ _))
  refine ⟨(start ++ [Char.ofNat 39], start) :: (start, rhs) :: ps,
    symInsert (start.headD (Char.ofNat 0)) S0,
    { C := [I0], T := [[]], idx := mapSet (key I0) 0 [] }, ?_⟩
  simp only [setup, hI0]

theorem setup_idxKey (g0 : Grammar) (S0 : List Char) (g : Grammar) (S : List Char)
    (b0 : Builder) (h : setup g0 S0 = .ok (g, S, b0)) : IdxKey b0 ∧ IdxDom b0 := by
  obtain ⟨start, rhs, rest, I0, _, _, _, _, rfl⟩ := setup_cases g0 S0 g S b0 h
  constructor
  · intro j J hj
    cases j with
    | zero =>
      simp only [List.getElem?_cons_zero, Option.some.injEq] at hj
      subst hj
      exact mapGet_mapSet_self _ _ _
    | succ j => simp at hj
  · intro k v hv
    simp only [mapSet, mapGet] at hv
    by_cases hk : k = key I0
    · rw [if_pos hk] at hv
      cases hv
      exact ⟨I0, rfl, hk.symm⟩
    · rw [if_neg hk] at hv
      cases hv

theorem setup_inv (g0 : Grammar) (S0 : List Char) (g : Grammar) (S : List Char)
    (b0 : Builder) (h : setup g0 S0 = .ok (g, S, b0)) (hl : LhsOk g0) :
    LhsOk g ∧ Inv g b0 := by
  have hk := setup_idxKey g0 S0 g S b0 h
  obtain ⟨start, rhs, rest, I0, hg0, hg, _, hI0, rfl⟩ := setup_cases g0 S0 g S b0 h
  have hstart : NoArrow start := hl (start, rhs) (by rw [hg0]; exact List.mem_cons_self _ _)
  have hlg : LhsOk g := by
    intro q hq
    rw [hg] at hq
    rcases List.mem_cons.1 hq with rfl | hq
    · exact noArrow_concat start _ hstart (by decide)
    · exact hl q hq
  refine ⟨hlg, ⟨rfl, by simp, ?_, hk.1, hk.2⟩⟩
  intro I hI
  simp only [List.mem_singleton] at hI
  subst hI
  have hsub := (closureLoop_spec g _ _ I hI0)
  refine ⟨hsub.2.2.2 ⟨List.sorted_singleton _, List.nodup_singleton _⟩, ?_, ?_,
    closure_closed g _ I hI0⟩
  · apply closure_tracked g _ I hI0
    intro s hs
    rw [List.mem_singleton] at hs
    exact ⟨_, _, 0, by rw [hg]; exact List.mem_cons_self _ _, Nat.zero_le _, by simp, hs⟩
  · exact closure_ne_nil g _ I hI0 (by simp)

theorem deduplicated_of_idxKey (b : Builder) (hk : IdxKey b) : Deduplicated b :=
  ⟨fun i j hi _ h => idxKey_injective b hk i j hi h, hk⟩

/-! ## Lemmas on the key and the transition table -/

theorem key_foldl (acc : Str) (s : ItemSet) :
    s.foldl (fun k x => k ++ (x ++ ['|'])) acc
      = acc ++ s.foldl (fun k x => k ++ (x ++ ['|'])) [] := by
  induction s generalizing acc with
  | nil => simp
  | cons x xs ih =>
    simp only [List.foldl_cons, List.nil_append]
    rw [ih (acc ++ (x ++ ['|'])), ih (x ++ ['|'])]
    simp

theorem key_cons (x : Str) (xs : ItemSet) : key (x :: xs) = x ++ '|' :: key xs := by
  simp only [key, List.foldl_cons, List.nil_append]
  rw [key_foldl]
  simp

theorem split_bar (x y u v : Str) (hx : '|' ∉ x) (hy : '|' ∉ y)
    (h : x ++ '|' :: u = y ++ '|' :: v) : x = y ∧ u = v := by
  induction x generalizing y with
  | nil =>
    cases y with
    | nil => simpa using h
    | cons c cs =>
      simp only [List.nil_append, List.cons_append, List.cons.injEq] at h
      exact absurd (List.mem_cons.2 (Or.inl h.1)) hy
  | cons a as ih =>
    cases y with
    | nil =>
      simp only [List.nil_append, List.cons_append, List.cons.injEq] at h
      exact absurd (List.mem_cons.2 (Or.inl h.1.symm)) hx
    | cons c cs =>
      simp only [List.cons_append, List.cons.injEq] at h
      have has : '|' ∉ as := fun e => hx (List.mem_cons_of_mem _ e)
      have hcs : '|' ∉ cs := fun e => hy (List.mem_cons_of_mem _ e)
      obtain ⟨h1, h2⟩ := ih cs has hcs h.2
      exact ⟨by rw [h.1, h1], h2⟩

theorem key_inj (I J : ItemSet) (hI : ∀ s ∈ I, '|' ∉ s) (hJ : ∀ s ∈ J, '|' ∉ s)
    (h : key I = key J) : I = J := by
  induction I generalizing J with
  | nil =>
    cases J with
    | nil => rfl
    | cons y ys =>
      rw [key_cons] at h
      have := congrArg List.length h
      simp only [key, List.foldl_nil, List.length_nil, List.length_append,
        List.length_cons] at this
      omega
  | cons x xs ih =>
    cases J with
    | nil =>
      rw [key_cons] at h
      have := congrArg List.length h
      simp only [key, List.foldl_nil, List.length_nil, List.length_append,
        List.length_cons] at this
      omega
    | cons y ys =>
      rw [key_cons, key_cons] at h
      obtain ⟨h1, h2⟩ := split_bar x y _ _ (hI x (List.mem_cons_self _ _))
        (hJ y (List.mem_cons_self _ _)) h
      rw [h1, ih ys (fun s hs => hI s (List.mem_cons_of_mem _ hs))
        (fun s hs => hJ s (List.mem_cons_of_mem _ hs)) h2]

theorem tracked_noBar (g : Grammar) (hb : BarFree g) (s : Str) (h : Tracked g s) :
    '|' ∉ s := by
  obtain ⟨A, B, d, hm, _, _, rfl⟩ := h
  obtain ⟨hA, hB⟩ := hb _ hm
  rw [make_eq]
  simp only [arrow, List.mem_append, List.mem_cons, not_or]
  refine ⟨hA, ⟨by decide, by decide, List.not_mem_nil _⟩, fun e => hB (List.mem_of_mem_take e),
    by decide, fun e => hB (List.mem_of_mem_drop e)⟩

theorem good_key_inj (g : Grammar) (hb : BarFree g) (I J : ItemSet) (hI : GoodState g I)
    (hJ : GoodState g J) (h : key I = key J) : I = J :=
  key_inj I J (fun s hs => tracked_noBar g hb s (hI.2.1 s hs))
    (fun s hs => tracked_noBar g hb s (hJ.2.1 s hs)) h

theorem setup_barFree (g0 : Grammar) (S0 : List Char) (g : Grammar) (S : List Char)
    (b0 : Builder) (h : setup g0 S0 = .ok (g, S, b0)) (hb : BarFree g0) : BarFree g := by
  obtain ⟨start, rhs, rest, I0, hg0, hg, _, _, _⟩ := setup_cases g0 S0 g S b0 h
  have hstart : '|' ∉ start := (hb (start, rhs) (by rw [hg0]; exact List.mem_cons_self _ _)).1
  intro q hq
  rw [hg] at hq
  rcases List.mem_cons.1 hq with rfl | hq
  · refine ⟨?_, hstart⟩
    simp only [List.mem_append, List.mem_singleton, not_or]
    exact ⟨hstart, by decide⟩
  · exact hb q hq

theorem goTo_reduce (g : Grammar) (I J : ItemSet) (X : Char) (hI : ∀ s ∈ I, IsReduce s)
    (h : goTo g I X = .ok J) : J = [] := by
  obtain ⟨J0, hJ0, ⟨_, hnil⟩ | ⟨hne, _⟩⟩ := goTo_cases g I J X h
  · exact hnil
  · exfalso
    obtain ⟨s, hs⟩ := List.exists_mem_of_ne_nil J0 hne
    rcases (moved_mem X I [] J0 hJ0 s).1 hs with h0 | ⟨it, hit, A, B, d, hp, hX, _⟩
    · simp at h0
    · obtain ⟨A1, B1, d1, hp1, hnone⟩ := hI it hit
      rw [hp] at hp1
      cases hp1
      rw [hX] at hnone
      cases hnone

theorem rowDone_mono (g : Grammar) (b b1 : Builder) (j : Nat) (done : List Char)
    (hCj : b1.C.getD j [] = b.C.getD j []) (hTj : b1.T.getD j [] = b.T.getD j [])
    (hC : ∀ (k : Nat) (I : ItemSet), b.C[k]? = some I → b1.C[k]? = some I)
    (h : RowDone g b j done) :
    RowDone g b1 j done := by
  intro X
  obtain ⟨h1, h2⟩ := h X
  rw [hCj, hTj]
  refine ⟨fun hX => ?_, h2⟩
  obtain ⟨J, hJ, hnil, hsome⟩ := h1 hX
  refine ⟨J, hJ, hnil, fun hne => ?_⟩
  obtain ⟨k, hk, hCk⟩ := hsome hne
  exact ⟨k, hk, hC k J hCk⟩

theorem getD_of_getElem? {α : Type} (l l1 : List α) (j : Nat) (d : α) (hj : j < l.length)
    (h : ∀ (k : Nat) (a : α), l[k]? = some a → l1[k]? = some a) :
    l1.getD j d = l.getD j d := by
  rw [List.getD_eq_getElem?_getD, List.getD_eq_getElem?_getD,
    h j l[j] (List.getElem?_eq_getElem hj), List.getElem?_eq_getElem hj]

theorem table_step (g : Grammar) (S : List Char) (b b1 : Builder) (i : Nat)
    (done : List Char) (X : Char) (J : ItemSet) (v : Nat) (hi : i < b.C.length)
    (hJ : goTo g (b.C.getD i []) X = .ok J) (hne : J ≠ [])
    (hC : ∀ (k : Nat) (I : ItemSet), b.C[k]? = some I → b1.C[k]? = some I)
    (hTi : b1.T.getD i [] = mapSet X v (b.T.getD i []))
    (hTj : ∀ j, j ≠ i → j < b.C.length → b1.T.getD j [] = b.T.getD j [])
    (hnew : ∀ j, b.C.length ≤ j → j < b1.C.length → b1.T.getD j [] = [])
    (hv : b1.C[v]? = some J) (ht : TableInv g S b i done) :
    TableInv g S b1 i (done ++ [X]) := by
  intro j hj
  by_cases hold : j < b.C.length
  · have hCj : b1.C.getD j [] = b.C.getD j [] := getD_of_getElem? b.C b1.C j [] hold hC
    by_cases hji : j = i
    · subst hji
      have hrow := ht j hold
      simp only [lt_irrefl, if_false, if_true] at hrow ⊢
      intro Y
      obtain ⟨h1, h2⟩ := hrow Y
      rw [hCj, hTi]
      by_cases hY : Y = X
      · subst hY
        refine ⟨fun _ => ⟨J, hJ, fun e => absurd e hne, fun _ =>
          ⟨v, mapGet_mapSet_self _ _ _, hv⟩⟩, fun hn => ?_⟩
        exact absurd (List.mem_append_right _ (List.mem_singleton_self Y)) hn
      · rw [mapGet_mapSet_of_ne _ _ _ _ hY]
        constructor
        · intro hYm
          have hYd : Y ∈ done := by
            rcases List.mem_append.1 hYm with h | h
            · exact h
            · exact absurd (List.mem_singleton.1 h) hY
          obtain ⟨J2, hJ2, hnil, hsome⟩ := h1 hYd
          refine ⟨J2, hJ2, hnil, fun hne2 => ?_⟩
          obtain ⟨k, hk, hCk⟩ := hsome hne2
          exact ⟨k, hk, hC k J2 hCk⟩
        · intro hYn
          exact h2 (fun e => hYn (List.mem_append_left _ e))
    · have hrow := ht j hold
      have hprog : (if j < i then S else if j = i then done ++ [X] else [])
          = (if j < i then S else if j = i then done else []) := by
        simp [hji]
      rw [hprog]
      exact rowDone_mono g b b1 j _ hCj (hTj j hji hold) hC hrow
  · have hgt : ¬ j < i := by omega
    have hne2 : j ≠ i := by omega
    simp only [hgt, hne2, if_false]
    intro Y
    rw [hnew j (by omega) hj]
    exact ⟨fun h => absurd h (List.not_mem_nil _), fun _ => rfl⟩

theorem visit_table (g : Grammar) (hl : LhsOk g) (hb : BarFree g) (S : List Char)
    (b b1 : Builder) (i : Nat) (done : List Char) (X : Char) (hinv : Inv g b)
    (hi : i < b.C.length) (ht : TableInv g S b i done) (hv : visit g i X b = .ok b1) :
    TableInv g S b1 i (done ++ [X]) := by
  have hiT : i < b.T.length := by rw [hinv.lenT]; exact hi
  obtain ⟨J, hJ, ⟨hnil, rfl⟩ | ⟨hne, _, rfl⟩ | ⟨hne, v, hkv, rfl⟩⟩ := visit_cases g i X b b1 hv
  · intro j hj
    by_cases hji : j = i
    · subst hji
      have hrow := ht j hj
      simp only [lt_irrefl, if_false, if_true] at hrow ⊢
      intro Y
      obtain ⟨h1, h2⟩ := hrow Y
      constructor
      · intro hYm
        by_cases hYd : Y ∈ done
        · exact h1 hYd
        · have hYX : Y = X := by
            rcases List.mem_append.1 hYm with h | h
            · exact absurd h hYd
            · exact List.mem_singleton.1 h
          subst hYX
          exact ⟨J, hJ, fun _ => h2 hYd, fun e => absurd hnil e⟩
      · intro hYn
        exact h2 (fun e => hYn (List.mem_append_left _ e))
    · have hrow := ht j hj
      have hprog : (if j < i then S else if j = i then done ++ [X] else [])
          = (if j < i then S else if j = i then done else []) := by
        simp [hji]
      rw [hprog]
      exact hrow
  · refine table_step g S b _ i done X J b.C.length hi hJ hne ?_ ?_ ?_ ?_ ?_ ht
    · intro k I hk
      simp only
      rw [List.getElem?_append_left (getElem?_lt hk)]
      exact hk
    · simp only [List.getD_eq_getElem?_getD]
      rw [List.getElem?_set_self (by simp; omega), List.getElem?_append_left hiT]
      simp
    · intro j hji hj
      simp only [List.getD_eq_getElem?_getD]
      rw [List.getElem?_set_ne (Ne.symm hji),
        List.getElem?_append_left (by rw [hinv.lenT]; exact hj)]
    · intro j hle hj
      simp only [List.length_append, List.length_singleton] at hj
      have hjeq : j = b.T.length := by rw [hinv.lenT]; omega
      simp only [List.getD_eq_getElem?_getD]
      rw [List.getElem?_set_ne (by omega), hjeq, List.getElem?_concat_length]
      rfl
    · simp only
      exact List.getElem?_concat_length _ _
  · obtain ⟨J1, hJ1, hkey⟩ := hinv.idxDom _ _ hkv
    have hgoodJ : GoodState g J := by
      apply goTo_good g hl _ _ X _ hJ hne
      intro s hs
      exact (hinv.good _ (mem_of_getD_ne b.C i s hs)).2.1 s hs
    have hJ1eq : J1 = J :=
      good_key_inj g hb J1 J (hinv.good J1 (List.mem_iff_getElem?.2 ⟨v, hJ1⟩)) hgoodJ hkey
    subst hJ1eq
    refine table_step g S b _ i done X J1 v hi hJ hne ?_ ?_ ?_ ?_ ?_ ht
    · intro k I hk
      exact hk
    · simp only [List.getD_eq_getElem?_getD]
      rw [List.getElem?_set_self hiT]
      simp
    · intro j hji _
      simp only [List.getD_eq_getElem?_getD]
      rw [List.getElem?_set_ne (Ne.symm hji)]
    · intro j hle hj
      simp only at hj
      omega
    · exact hJ1

theorem forSymbols_table (g : Grammar) (hl : LhsOk g) (hb : BarFree g) (S : List Char)
    (i : Nat) (xs : List Char) (b b1 : Builder) (done : List Char) (hinv : Inv g b)
    (hi : i < b.C.length) (ht : TableInv g S b i done)
    (h : forSymbols g i xs b = .ok b1) : TableInv g S b1 i (done ++ xs) := by
  induction xs generalizing b done with
  | nil =>
    simp only [forSymbols] at h
    cases h
    simpa using ht
  | cons X xs ih =>
    simp only [forSymbols] at h
    split at h
    · exact absurd h (by simp)
    · rename_i b2 hv
      have hlen := visit_len g i X b b2 hv
      have := ih b2 (done ++ [X]) (visit_inv g hl i X b b2 hv hinv) (by omega)
        (visit_table g hl hb S b b2 i done X hinv hi ht hv) h
      simpa using this

theorem discover_table (g : Grammar) (hl : LhsOk g) (hb : BarFree g) (S : List Char)
    (n i : Nat) (b b1 : Builder) (hinv : Inv g b) (ht : TableInv g S b i [])
    (h : discover g S n i b = .ok b1) : ∀ j, j < b1.C.length → RowDone g b1 j S := by
  induction n generalizing i b with
  | zero =>
    simp only [discover] at h
    split at h
    · exact absurd h (by simp)
    · rename_i hi
      cases h
      intro j hj
      have := ht j hj
      rw [if_pos (by omega)] at this
      exact this
  | succ n ih =>
    simp only [discover] at h
    split at h
    · rename_i hi
      split at h
      · exact absurd h (by simp)
      · rename_i b2 hf
        have ht2 := forSymbols_table g hl hb S i S b b2 [] hinv hi ht hf
        apply ih (i + 1) b2 (forSymbols_inv g hl i S b b2 hf hinv) _ h
        intro j hj
        have hrow := ht2 j hj
        by_cases h1 : j < i
        · rw [if_pos h1] at hrow
          rw [if_pos (by omega)]
          exact hrow
        · rw [if_neg h1] at hrow
          by_cases h2 : j = i
          · rw [if_pos h2] at hrow
            rw [if_pos (by omega)]
            simpa using hrow
          · rw [if_neg h2] at hrow
            rw [if_neg (by omega), ite_self]
            exact hrow
    · rename_i hi
      cases h
      intro j hj
      have := ht j hj
      rw [if_pos (by omega)] at this
      exact this

theorem setup_table (g0 : Grammar) (S0 : List Char) (g : Grammar) (S : List Char)
    (b0 : Builder) (h : setup g0 S0 = .ok (g, S, b0)) : TableInv g S b0 0 [] := by
  obtain ⟨start, rhs, rest, I0, _, _, _, _, rfl⟩ := setup_cases g0 S0 g S b0 h
  intro j hj
  simp only [List.length_singleton] at hj
  have hj0 : j = 0 := by omega
  subst hj0
  simp only [lt_irrefl, if_false, if_true]
  intro Y
  exact ⟨fun h => absurd h (List.not_mem_nil _), fun _ => rfl⟩

/-! ## Settled claims: closure and goTo -/

/-- C1: for a grammar whose left-hand sides contain no "->" and whose right-hand sides
contain no '.', and a set `I` of items of the grammar, `closure(I)` returns a set of items
of the grammar in which every item with an uppercase letter `N` after its dot is accompanied
by the initial item `L->.R` of every production whose left-hand side `L` is `N`. -/
theorem closure_closed_under_expansion (g : Grammar) (I : ItemSet) (hl : LhsOk g)
    (hr : RhsOk g) (hI : ∀ s ∈ I, IsItemOf g s) :
    ∃ R, closure g I = .ok R ∧ (∀ s ∈ R, IsItemOf g s) ∧
      ∀ s ∈ R, ∀ N, DotBefore g s N → N.isUpper = true →
        ∀ L Rhs, (L, Rhs) ∈ g → L = [N] → make L Rhs 0 ∈ R := by
  have hT : ∀ s ∈ I, Tracked g s := fun s hs => tracked_of_itemOf g hr s (hI s hs)
  have hP : ∀ s ∈ I, ∃ r, parse s = .ok r := fun s hs => by
    obtain ⟨A, B, d, _, _, _, _, hp⟩ := tracked_parse g hl s (hT s hs)
    exact ⟨_, hp⟩
  obtain ⟨R, hR⟩ := closure_ok g I hP
  refine ⟨R, hR, fun s hs => itemOf_of_tracked g s (closure_tracked g I R hR hT s hs), ?_⟩
  intro s hs N hN hu L Rhs hm hL
  have hc := (closureLoop_spec g _ I R hR).2.2.1
  refine (closurePass_mem g R (R, false) (R, false) hc (make L Rhs 0)).2 (Or.inr ?_)
  refine ⟨s, hs, N, afterDot_of_dotBefore g hl hr s N hN, hu, (L, Rhs), hm, ?_, rfl⟩
  simp [hL]

/-- C1 at the grammar `E->E+T | T`, `T->i` and the item set `{E->.T}`. -/
theorem closure_closed_under_expansion_witness :
    LhsOk [("E".toList, "E+T".toList), ("E".toList, "T".toList), ("T".toList, "i".toList)] ∧
    RhsOk [("E".toList, "E+T".toList), ("E".toList, "T".toList), ("T".toList, "i".toList)] ∧
    (∀ s ∈ ["E->.T".toList],
      IsItemOf [("E".toList, "E+T".toList), ("E".toList, "T".toList), ("T".toList, "i".toList)]
        s) ∧
    ∃ R, closure [("E".toList, "E+T".toList), ("E".toList, "T".toList),
        ("T".toList, "i".toList)] ["E->.T".toList] = .ok R ∧
      (∀ s ∈ R, IsItemOf [("E".toList, "E+T".toList), ("E".toList, "T".toList),
        ("T".toList, "i".toList)] s) ∧
      ∀ s ∈ R, ∀ N, DotBefore [("E".toList, "E+T".toList), ("E".toList, "T".toList),
          ("T".toList, "i".toList)] s N → N.isUpper = true →
        ∀ L Rhs, (L, Rhs) ∈ [("E".toList, "E+T".toList), ("E".toList, "T".toList),
          ("T".toList, "i".toList)] → L = [N] → make L Rhs 0 ∈ R :=
  have h1 : LhsOk [("E".toList, "E+T".toList), ("E".toList, "T".toList),
      ("T".toList, "i".toList)] := by decide
  have h2 : RhsOk [("E".toList, "E+T".toList), ("E".toList, "T".toList),
      ("T".toList, "i".toList)] := by decide
  have h3 : ∀ s ∈ ["E->.T".toList],
      IsItemOf [("E".toList, "E+T".toList), ("E".toList, "T".toList),
        ("T".toList, "i".toList)] s := by
    intro s hs
    rw [List.mem_singleton] at hs
    exact ⟨"E".toList, "T".toList, 0, by decide, by decide, by rw [hs]; rfl⟩
  ⟨h1, h2, h3, closure_closed_under_expansion _ _ h1 h2 h3⟩

/-- C2 (evaluation at the failing input): with the augmented grammar `E'->E`, `E->E+E` the
closure of `{E->E+.E}` contains `E'->.E`, which is not a member of the input and is not the
initial item of any production whose left-hand side is exactly a letter `N`: the test
`p.first[0] == B[d]` matched the first character of `E'`. -/
theorem closure_inserts_augmented_item :
    closure [("E'".toList, "E".toList), ("E".toList, "E+E".toList)] ["E->E+.E".toList]
      = .ok ["E'->.E".toList, "E->.E+E".toList, "E->E+.E".toList] ∧
    "E'->.E".toList ∉ ["E->E+.E".toList] ∧
    ∀ L Rhs N, (L, Rhs) ∈ [("E'".toList, "E".toList), ("E".toList, "E+E".toList)] →
      L = [N] → make L Rhs 0 ≠ "E'->.E".toList := by
  refine ⟨rfl, by decide, ?_⟩
  intro L Rhs N hm hL
  simp only [List.mem_cons, Prod.mk.injEq, List.mem_singleton] at hm
  rcases hm with ⟨h1, h2⟩ | ⟨h1, h2⟩ | hm
  · rw [h1] at hL
    exact absurd (congrArg List.length hL) (show ¬ (2 = 1) by decide)
  · rw [h1, h2]
    decide
  · simp at hm

/-- C3: for a grammar whose left-hand sides contain no "->" and whose right-hand sides
contain no '.', a set `I` of its items and a symbol `X`, `goTo(I, X)` returns; the result is
empty exactly when no item of `I` has `X` after its dot, in particular when every item of `I`
is a reduce item; otherwise it is `closure(J)` for the set `J` of the items of `I` that have
`X` after the dot, each with the dot moved one position to the right. -/
theorem goTo_is_GOTO (g : Grammar) (I : ItemSet) (X : Char) (hl : LhsOk g) (hr : RhsOk g)
    (hI : ∀ s ∈ I, IsItemOf g s) :
    ∃ R, goTo g I X = .ok R ∧
      (R = [] ↔ ∀ s ∈ I, ¬ DotBefore g s X) ∧
      ((∀ s ∈ I, Completed g s) → R = []) ∧
      ((∃ s ∈ I, DotBefore g s X) →
        ∃ J, IsSet J ∧
          (∀ s, s ∈ J ↔
            ∃ A B d, (A, B) ∈ g ∧ make A B d ∈ I ∧ B[d]? = some X ∧ s = make A B (d + 1)) ∧
          closure g J = .ok R) := by
  have hP : ∀ s ∈ I, ∃ r, parse s = .ok r := fun s hs => by
    obtain ⟨A, B, d, hm, hd, rfl⟩ := hI s hs
    exact ⟨_, parse_item g hl hr A B d hm hd⟩
  obtain ⟨R, hR⟩ := goTo_ok g I X hP
  obtain ⟨J, hJ, hcase⟩ := goTo_cases g I R X hR
  have hmem : ∀ s, s ∈ J ↔
      ∃ A B d, (A, B) ∈ g ∧ make A B d ∈ I ∧ B[d]? = some X ∧ s = make A B (d + 1) := by
    intro s
    rw [moved_mem X I [] J hJ s]
    constructor
    · rintro (h0 | ⟨it, hit, A, B, d, hp, hX, hs⟩)
      · simp at h0
      · obtain ⟨A1, B1, d1, hm, hd, rfl⟩ := hI it hit
        rw [parse_item g hl hr A1 B1 d1 hm hd] at hp
        cases hp
        exact ⟨A, B, d, hm, hit, hX, hs⟩
    · rintro ⟨A, B, d, hm, hit, hX, hs⟩
      exact Or.inr ⟨make A B d, hit, A, B, d,
        parse_item g hl hr A B d hm (Nat.le_of_lt (lt_of_getElem?_eq_some B d X hX)), hX, hs⟩
  have hJnil : J = [] ↔ ∀ s ∈ I, ¬ DotBefore g s X := by
    constructor
    · rintro hj s hs ⟨A, B, d, hm, rfl, hX⟩
      have : make A B (d + 1) ∈ J := (hmem _).2 ⟨A, B, d, hm, hs, hX, rfl⟩
      rw [hj] at this
      simp at this
    · intro hno
      apply List.eq_nil_iff_forall_not_mem.2
      intro s hs
      obtain ⟨A, B, d, hm, hit, hX, _⟩ := (hmem s).1 hs
      exact hno _ hit ⟨A, B, d, hm, rfl, hX⟩
  have hRnil : R = [] ↔ J = [] := by
    rcases hcase with ⟨hj, hr0⟩ | ⟨hj, hc⟩
    · simp [hj, hr0]
    · have := closure_ne_nil g J R hc hj
      simp [hj, this]
  refine ⟨R, hR, hRnil.trans hJnil, ?_, ?_⟩
  · intro hall
    apply (hRnil.trans hJnil).2
    rintro s hs ⟨A, B, d, hm, hsd, hX⟩
    obtain ⟨A1, B1, hm1, hs1⟩ := hall s hs
    have p1 := parse_item g hl hr A1 B1 B1.length hm1 (le_refl _)
    have p2 := parse_item g hl hr A B d hm (Nat.le_of_lt (lt_of_getElem?_eq_some B d X hX))
    rw [← hs1, hsd, p2] at p1
    cases p1
    simp at hX
  · rintro ⟨s, hs, hdb⟩
    rcases hcase with ⟨hj, _⟩ | ⟨_, hc⟩
    · exact absurd hdb (hJnil.1 hj s hs)
    · exact ⟨J, moved_isSet X I [] J hJ isSet_nil, hmem, hc⟩

/-- C3 at the grammar `E->E+T | T`, `T->i`, the item set `{E->.E+T, E->.T}` and `X = E`. -/
theorem goTo_is_GOTO_witness :
    LhsOk [("E".toList, "E+T".toList), ("E".toList, "T".toList), ("T".toList, "i".toList)] ∧
    RhsOk [("E".toList, "E+T".toList), ("E".toList, "T".toList), ("T".toList, "i".toList)] ∧
    (∀ s ∈ ["E->.E+T".toList, "E->.T".toList],
      IsItemOf [("E".toList, "E+T".toList), ("E".toList, "T".toList), ("T".toList, "i".toList)]
        s) ∧
    ∃ R, goTo [("E".toList, "E+T".toList), ("E".toList, "T".toList), ("T".toList, "i".toList)]
        ["E->.E+T".toList, "E->.T".toList] 'E' = .ok R ∧
      (R = [] ↔ ∀ s ∈ ["E->.E+T".toList, "E->.T".toList],
        ¬ DotBefore [("E".toList, "E+T".toList), ("E".toList, "T".toList),
          ("T".toList, "i".toList)] s 'E') ∧
      ((∀ s ∈ ["E->.E+T".toList, "E->.T".toList],
        Completed [("E".toList, "E+T".toList), ("E".toList, "T".toList),
          ("T".toList, "i".toList)] s) → R = []) ∧
      ((∃ s ∈ ["E->.E+T".toList, "E->.T".toList],
          DotBefore [("E".toList, "E+T".toList), ("E".toList, "T".toList),
            ("T".toList, "i".toList)] s 'E') →
        ∃ J, IsSet J ∧
          (∀ s, s ∈ J ↔
            ∃ A B d, (A, B) ∈ [("E".toList, "E+T".toList), ("E".toList, "T".toList),
                ("T".toList, "i".toList)] ∧
              make A B d ∈ ["E->.E+T".toList, "E->.T".toList] ∧ B[d]? = some 'E' ∧
              s = make A B (d + 1)) ∧
          closure [("E".toList, "E+T".toList), ("E".toList, "T".toList),
            ("T".toList, "i".toList)] J = .ok R) :=
  have h1 : LhsOk [("E".toList, "E+T".toList), ("E".toList, "T".toList),
      ("T".toList, "i".toList)] := by decide
  have h2 : RhsOk [("E".toList, "E+T".toList), ("E".toList, "T".toList),
      ("T".toList, "i".toList)] := by decide
  have h3 : ∀ s ∈ ["E->.E+T".toList, "E->.T".toList],
      IsItemOf [("E".toList, "E+T".toList), ("E".toList, "T".toList),
        ("T".toList, "i".toList)] s := by
    intro s hs
    simp only [List.mem_cons, List.mem_singleton, List.not_mem_nil, or_false] at hs
    rcases hs with hs | hs
    · exact ⟨"E".toList, "E+T".toList, 0, by decide, by decide, by rw [hs]; rfl⟩
    · exact ⟨"E".toList, "T".toList, 0, by decide, by decide, by rw [hs]; rfl⟩
  ⟨h1, h2, h3, goTo_is_GOTO _ _ 'E' h1 h2 h3⟩

/-- C7: for a grammar with `P` productions and a set `I` of well-formed items, the
`do ... while` of `closure` stops within `P + 1` passes; every pass keeps all items it
started with, a pass that sets the flag has inserted a new initial item of a production of
the grammar, and a pass that leaves the flag unset has changed nothing. -/
theorem closure_terminates (g : Grammar) (I : ItemSet) (hI : ∀ s ∈ I, WellFormed s) :
    (∃ R, closureLoop g (g.length + 1) I = .ok R) ∧
    ∀ W W1 c, closurePass g W (W, false) = .ok (W1, c) →
      (∀ s ∈ W, s ∈ W1) ∧
      (c = true → ∃ p ∈ g, make p.1 p.2 0 ∉ W ∧ make p.1 p.2 0 ∈ W1) ∧
      (c = false → W1 = W) := by
  refine ⟨closure_ok g I (fun s hs => parse_wellFormed s (hI s hs)), ?_⟩
  intro W W1 c hpass
  have hmem := closurePass_mem g W (W, false) (W1, c) hpass
  refine ⟨fun s hs => (hmem s).2 (Or.inl hs), ?_, ?_⟩
  · intro hc
    rcases (closurePass_flag g W (W, false) (W1, c) hpass).1 hc with h0 | ⟨s, hd, hns⟩
    · exact Bool.noConfusion h0
    · have hs1 : s ∈ W1 := (hmem s).2 (Or.inr hd)
      obtain ⟨_, _, _, _, _, p, hp, _, hs⟩ := hd
      exact ⟨p, hp, hs ▸ hns, hs ▸ hs1⟩
  · intro hc
    exact closurePass_false g W (W, false) (W1, c) hpass hc

/-- C7 at the grammar `E->E+T | T`, `T->i` and the item set `{E->.T}`. -/
theorem closure_terminates_witness :
    (∀ s ∈ ["E->.T".toList], WellFormed s) ∧
    ((∃ R, closureLoop [("E".toList, "E+T".toList), ("E".toList, "T".toList),
        ("T".toList, "i".toList)] (3 + 1) ["E->.T".toList] = .ok R) ∧
    ∀ W W1 c, closurePass [("E".toList, "E+T".toList), ("E".toList, "T".toList),
        ("T".toList, "i".toList)] W (W, false) = .ok (W1, c) →
      (∀ s ∈ W, s ∈ W1) ∧
      (c = true → ∃ p ∈ [("E".toList, "E+T".toList), ("E".toList, "T".toList),
          ("T".toList, "i".toList)], make p.1 p.2 0 ∉ W ∧ make p.1 p.2 0 ∈ W1) ∧
      (c = false → W1 = W)) :=
  have h : ∀ s ∈ ["E->.T".toList], WellFormed s := by
    intro s hs
    rw [List.mem_singleton] at hs
    exact ⟨"E".toList, ".T".toList, by rw [hs]; rfl, by decide⟩
  ⟨h, closure_terminates _ _ h⟩

/-- C8: for a set `I` of well-formed items, `closure(I)` returns and applying `closure` to
the result returns the same set. -/
theorem closure_idempotent (g : Grammar) (I : ItemSet) (hI : ∀ s ∈ I, WellFormed s) :
    ∃ R, closure g I = .ok R ∧ closure g R = .ok R := by
  obtain ⟨R, hR⟩ := closure_ok g I (fun s hs => parse_wellFormed s (hI s hs))
  exact ⟨R, hR, closure_closed g I R hR⟩

/-- C8 at the grammar `E->E+T | T`, `T->i` and the item set `{E->.T}`. -/
theorem closure_idempotent_witness :
    (∀ s ∈ ["E->.T".toList], WellFormed s) ∧
    ∃ R, closure [("E".toList, "E+T".toList), ("E".toList, "T".toList),
        ("T".toList, "i".toList)] ["E->.T".toList] = .ok R ∧
      closure [("E".toList, "E+T".toList), ("E".toList, "T".toList),
        ("T".toList, "i".toList)] R = .ok R :=
  have h : ∀ s ∈ ["E->.T".toList], WellFormed s := by
    intro s hs
    rw [List.mem_singleton] at hs
    exact ⟨"E".toList, ".T".toList, by rw [hs]; rfl, by decide⟩
  ⟨h, closure_idempotent _ _ h⟩

/-- C9: for a set `I` of well-formed items, `closure(I)` returns a set that contains every
item of `I`. -/
theorem closure_extensive (g : Grammar) (I : ItemSet) (hI : ∀ s ∈ I, WellFormed s) :
    ∃ R, closure g I = .ok R ∧ ∀ s ∈ I, s ∈ R := by
  obtain ⟨R, hR⟩ := closure_ok g I (fun s hs => parse_wellFormed s (hI s hs))
  exact ⟨R, hR, (closureLoop_spec g _ I R hR).1⟩

/-- C9 at the grammar `E->E+T | T`, `T->i` and the item set `{E->.T}`. -/
theorem closure_extensive_witness :
    (∀ s ∈ ["E->.T".toList], WellFormed s) ∧
    ∃ R, closure [("E".toList, "E+T".toList), ("E".toList, "T".toList),
        ("T".toList, "i".toList)] ["E->.T".toList] = .ok R ∧
      ∀ s ∈ ["E->.T".toList], s ∈ R :=
  have h : ∀ s ∈ ["E->.T".toList], WellFormed s := by
    intro s hs
    rw [List.mem_singleton] at hs
    exact ⟨"E".toList, ".T".toList, by rw [hs]; rfl, by decide⟩
  ⟨h, closure_extensive _ _ h⟩

/-- C10 as stated fails. First input: the production `S -> .a` with the dot at position 1;
`parse` finds the first '.' at position 0, so `goTo` on `a` moves nothing and returns the
empty set. Second input: the set holds the item `S->.a` and the text `x`, on which `parse`
throws, so `goTo` on `a` returns nothing. -/
theorem goTo_advance_counterexample :
    (NoArrow "S".toList ∧ 1 < ".a".toList.length ∧
      make "S".toList ".a".toList 1 ∈ [make "S".toList ".a".toList 1] ∧
      ".a".toList[1]? = some 'a' ∧
      ¬ ∃ R, goTo [("S".toList, ".a".toList)] [make "S".toList ".a".toList 1] 'a' = .ok R ∧
        make "S".toList ".a".toList (1 + 1) ∈ R) ∧
    (NoArrow "S".toList ∧ 0 < "a".toList.length ∧
      make "S".toList "a".toList 0 ∈ [make "S".toList "a".toList 0, "x".toList] ∧
      "a".toList[0]? = some 'a' ∧
      ¬ ∃ R, goTo [("S".toList, "a".toList)] [make "S".toList "a".toList 0, "x".toList] 'a'
          = .ok R ∧
        make "S".toList "a".toList (0 + 1) ∈ R) := by
  refine ⟨⟨by decide, by decide, by decide, by decide, ?_⟩,
    ⟨by decide, by decide, by decide, by decide, ?_⟩⟩
  · rintro ⟨R, hR, hm⟩
    have h : goTo [("S".toList, ".a".toList)] [make "S".toList ".a".toList 1] 'a' = .ok [] :=
      rfl
    rw [h] at hR
    cases hR
    simp at hm
  · rintro ⟨R, hR, _⟩
    have h : goTo [("S".toList, "a".toList)] [make "S".toList "a".toList 0, "x".toList] 'a'
        = .error .outOfRange := rfl
    rw [h] at hR
    cases hR

/-- C10, amended: for a production `(A, B)` with `A` free of "->", a dot position `d < |B|`
such that the first `d` characters of `B` contain no '.', and a set `I` of well-formed items
that contains `make(A, B, d)`, `goTo(I, B[d])` returns a set that contains
`make(A, B, d + 1)`. -/
theorem goTo_advances_dot (g : Grammar) (A B : Str) (d : Nat) (I : ItemSet) (hA : NoArrow A)
    (hd : d < B.length) (hdot : '.' ∉ B.take d) (hI : ∀ s ∈ I, WellFormed s)
    (hmem : make A B d ∈ I) :
    ∃ R, goTo g I B[d] = .ok R ∧ make A B (d + 1) ∈ R := by
  obtain ⟨R, hR⟩ := goTo_ok g I B[d] (fun s hs => parse_wellFormed s (hI s hs))
  obtain ⟨J, hJ, hcase⟩ := goTo_cases g I R B[d] hR
  have hX : B[d]? = some B[d] := List.getElem?_eq_getElem hd
  have hin : make A B (d + 1) ∈ J :=
    (moved_mem B[d] I [] J hJ _).2 (Or.inr ⟨make A B d, hmem, A, B, d,
      parse_make_of_le A B d hA hdot (Nat.le_of_lt hd), hX, rfl⟩)
  rcases hcase with ⟨hj, _⟩ | ⟨_, hc⟩
  · rw [hj] at hin
    simp at hin
  · exact ⟨R, hR, (closureLoop_spec g _ J R hc).1 _ hin⟩

/-- C10 amended, at the production `E->E+T`, dot position 1 and the set `{E->E.+T}`. -/
theorem goTo_advances_dot_witness :
    NoArrow "E".toList ∧ 1 < "E+T".toList.length ∧ '.' ∉ "E+T".toList.take 1 ∧
    (∀ s ∈ ["E->E.+T".toList], WellFormed s) ∧
    make "E".toList "E+T".toList 1 ∈ ["E->E.+T".toList] ∧
    ∃ R, goTo [("E".toList, "E+T".toList)] ["E->E.+T".toList] '+' = .ok R ∧
      make "E".toList "E+T".toList (1 + 1) ∈ R :=
  have h : ∀ s ∈ ["E->E.+T".toList], WellFormed s := by
    intro s hs
    rw [List.mem_singleton] at hs
    exact ⟨"E".toList, "E.+T".toList, by rw [hs]; rfl, by decide⟩
  ⟨by decide, by decide, by decide, h, by decide,
    goTo_advances_dot [("E".toList, "E+T".toList)] "E".toList "E+T".toList 1
      ["E->E.+T".toList] (by decide) (by decide) (by decide) h (by decide)⟩

/-! ## Settled claims: the discovery loop -/

/-- C5: for every grammar with a first production, the set-up of `main` yields an initial
state, and in every state the discovery loop passes through, and in the state it finishes
with, the item sets in `C` are pairwise distinct and `idx` sends the key of `C[j]` to `j`. -/
theorem states_deduplicated (p : Str × Str) (ps : Grammar) (S0 : List Char) :
    ∃ g S b0, setup (p :: ps) S0 = .ok (g, S, b0) ∧
      (∀ b, Reach g S b0 b → Deduplicated b) ∧
      (∀ n b, discover g S n 0 b0 = .ok b → Deduplicated b) := by
  obtain ⟨g, S, b0, hs⟩ := setup_ok p ps S0
  have hk := (setup_idxKey _ S0 g S b0 hs).1
  refine ⟨g, S, b0, hs, ?_, ?_⟩
  · intro b hr
    exact deduplicated_of_idxKey b (reach_idxKey g S b0 b hr hk)
  · intro n b hd
    exact deduplicated_of_idxKey b
      (reach_idxKey g S b0 b (discover_reach g S b0 n 0 b0 b hd Reach.start) hk)

/-- C6: for every grammar with a first production whose left-hand sides contain no "->"
(nothing is needed of the right-hand sides), the discovery loop reaches `i = |C|` within
`2 ^ itemCount g` iterations, `itemCount g` being the number of items of the augmented
grammar, and finishes with at most that many states. -/
theorem discovery_terminates (p : Str × Str) (ps : Grammar) (S0 : List Char)
    (hl : LhsOk (p :: ps)) :
    ∃ g S b0 b, setup (p :: ps) S0 = .ok (g, S, b0) ∧
      discover g S (2 ^ itemCount g) 0 b0 = .ok b ∧
      b.C.length ≤ 2 ^ itemCount g ∧
      automaton (p :: ps) S0 = .ok b := by
  obtain ⟨g, S, b0, hs⟩ := setup_ok p ps S0
  obtain ⟨hlg, hinv⟩ := setup_inv _ S0 g S b0 hs hl
  obtain ⟨b, hb⟩ := discover_ok g hlg S (2 ^ itemCount g) 0 b0 hinv (le_refl _)
  have hinvb := reach_inv g hlg S b0 b (discover_reach g S b0 _ 0 b0 b hb Reach.start) hinv
  exact ⟨g, S, b0, b, hs, hb, inv_card g b hinvb, by simp only [automaton, hs, hb]⟩

/-- C6 at the grammar `E->E+T | T`, `T->i` with the alphabet `+ E T i`. -/
theorem discovery_terminates_witness :
    LhsOk (("E".toList, "E+T".toList) :: [("E".toList, "T".toList), ("T".toList, "i".toList)])
    ∧ ∃ g S b0 b,
      setup (("E".toList, "E+T".toList) :: [("E".toList, "T".toList), ("T".toList, "i".toList)])
        "+ETi".toList = .ok (g, S, b0) ∧
      discover g S (2 ^ itemCount g) 0 b0 = .ok b ∧
      b.C.length ≤ 2 ^ itemCount g ∧
      automaton (("E".toList, "E+T".toList) ::
        [("E".toList, "T".toList), ("T".toList, "i".toList)]) "+ETi".toList = .ok b :=
  ⟨by decide, discovery_terminates _ _ _ (by decide)⟩

/-- C4: for every grammar with a first production whose left-hand sides contain no "->" and
whose productions contain no '|' (nothing is needed about '.'), the discovery loop finishes,
and in the finished table, for every state `C[i]` and every symbol `X` of the alphabet,
`T[i]` has an entry for `X` exactly when `goTo(C[i], X)` is non-empty, the entry is then an
index `k` with `C[k] = goTo(C[i], X)`; `T[i]` has no entry for other characters, and a state
whose every item is a reduce item has an empty `T[i]`. -/
theorem table_is_goTo (p : Str × Str) (ps : Grammar) (S0 : List Char)
    (hl : LhsOk (p :: ps)) (hb : BarFree (p :: ps)) :
    ∃ g S b0 b, setup (p :: ps) S0 = .ok (g, S, b0) ∧ automaton (p :: ps) S0 = .ok b ∧
      b.T.length = b.C.length ∧
      ∀ i I, b.C[i]? = some I →
        (∀ X ∈ S, ∃ J, goTo g I X = .ok J ∧
          ((mapGet X (b.T.getD i [])).isSome = true ↔ J ≠ []) ∧
          (∀ k, mapGet X (b.T.getD i []) = some k → b.C[k]? = some J)) ∧
        (∀ X, X ∉ S → mapGet X (b.T.getD i []) = none) ∧
        ((∀ s ∈ I, IsReduce s) → b.T.getD i [] = []) := by
  obtain ⟨g, S, b0, hs⟩ := setup_ok p ps S0
  obtain ⟨hlg, hinv⟩ := setup_inv _ S0 g S b0 hs hl
  have hbg := setup_barFree _ S0 g S b0 hs hb
  obtain ⟨b, hd⟩ := discover_ok g hlg S (2 ^ itemCount g) 0 b0 hinv (le_refl _)
  have hinvb := reach_inv g hlg S b0 b (discover_reach g S b0 _ 0 b0 b hd Reach.start) hinv
  have hrows := discover_table g hlg hbg S _ 0 b0 b hinv (setup_table _ S0 g S b0 hs) hd
  refine ⟨g, S, b0, b, hs, by simp only [automaton, hs, hd], hinvb.lenT, ?_⟩
  intro i I hI
  have hi : i < b.C.length := getElem?_lt hI
  have hget : b.C.getD i [] = I := by
    rw [List.getD_eq_getElem?_getD, hI]
    rfl
  have hrow := hrows i hi
  have hX : ∀ X ∈ S, ∃ J, goTo g I X = .ok J ∧
      ((mapGet X (b.T.getD i [])).isSome = true ↔ J ≠ []) ∧
      (∀ k, mapGet X (b.T.getD i []) = some k → b.C[k]? = some J) := by
    intro X hXS
    obtain ⟨J, hJ, hnil, hsome⟩ := (hrow X).1 hXS
    rw [hget] at hJ
    refine ⟨J, hJ, ?_, ?_⟩
    · constructor
      · intro hsm hj
        rw [hnil hj] at hsm
        exact Bool.noConfusion hsm
      · intro hj
        obtain ⟨k, hk, _⟩ := hsome hj
        rw [hk]
        rfl
    · intro k hk
      by_cases hj : J = []
      · rw [hnil hj] at hk
        cases hk
      · obtain ⟨k1, hk1, hC⟩ := hsome hj
        rw [hk1] at hk
        cases hk
        exact hC
  refine ⟨hX, fun X hXn => (hrow X).2 hXn, ?_⟩
  intro hred
  apply mapGet_none_all
  intro X
  by_cases hXS : X ∈ S
  · obtain ⟨J, hJ, hiff, _⟩ := hX X hXS
    have hJnil := goTo_reduce g I J X hred hJ
    cases hm : mapGet X (b.T.getD i []) with
    | none => rfl
    | some k =>
      exfalso
      exact (hiff.1 (by rw [hm]; rfl)) hJnil
  · exact (hrow X).2 hXS

/-- C4 at the grammar `E->E+T | T`, `T->i` with the alphabet `+ E T i`. -/
theorem table_is_goTo_witness :
    LhsOk (("E".toList, "E+T".toList) :: [("E".toList, "T".toList), ("T".toList, "i".toList)])
    ∧ BarFree
      (("E".toList, "E+T".toList) :: [("E".toList, "T".toList), ("T".toList, "i".toList)])
    ∧ ∃ g S b0 b,
      setup (("E".toList, "E+T".toList) :: [("E".toList, "T".toList), ("T".toList, "i".toList)])
        "+ETi".toList = .ok (g, S, b0) ∧
      automaton (("E".toList, "E+T".toList) ::
        [("E".toList, "T".toList), ("T".toList, "i".toList)]) "+ETi".toList = .ok b ∧
      b.T.length = b.C.length ∧
      ∀ i I, b.C[i]? = some I →
        (∀ X ∈ S, ∃ J, goTo g I X = .ok J ∧
          ((mapGet X (b.T.getD i [])).isSome = true ↔ J ≠ []) ∧
          (∀ k, mapGet X (b.T.getD i []) = some k → b.C[k]? = some J)) ∧
        (∀ X, X ∉ S → mapGet X (b.T.getD i []) = none) ∧
        ((∀ s ∈ I, IsReduce s) → b.T.getD i [] = []) :=
  ⟨by decide, by decide, table_is_goTo _ _ _ (by decide) (by decide)⟩

/-! ## Lemmas on the states of the collection -/

theorem visit_prefix (g : Grammar) (i : Nat) (X : Char) (b b1 : Builder)
    (h : visit g i X b = .ok b1) (k : Nat) (I : ItemSet) (hk : b.C[k]? = some I) :
    b1.C[k]? = some I := by
  obtain ⟨J, _, ⟨_, rfl⟩ | ⟨_, _, rfl⟩ | ⟨_, v, _, rfl⟩⟩ := visit_cases g i X b b1 h
  · exact hk
  · simp only
    rw [List.getElem?_append_left (getElem?_lt hk)]
    exact hk
  · exact hk

theorem reach_prefix (g : Grammar) (S : List Char) (b0 b : Builder) (hr : Reach g S b0 b)
    (k : Nat) (I : ItemSet) (hk : b0.C[k]? = some I) : b.C[k]? = some I := by
  induction hr with
  | start => exact hk
  | step b1 b2 i X _ _ _ hv ih => exact visit_prefix g i X b1 b2 hv k I ih

theorem setup_grammar (p : Str × Str) (ps : Grammar) (S0 : List Char) (g : Grammar)
    (S : List Char) (b0 : Builder) (h : setup (p :: ps) S0 = .ok (g, S, b0)) :
    g = (p.1 ++ [Char.ofNat 39], p.1) :: p :: ps ∧
    ∃ I0, closure g [make (p.1 ++ [Char.ofNat 39]) p.1 0] = .ok I0 ∧
      b0 = { C := [I0], T := [[]], idx := mapSet (key I0) 0 [] } := by
  obtain ⟨start, rhs, rest, I0, hg0, hg, _, hI0, hb0⟩ := setup_cases _ S0 g S b0 h
  simp only [List.cons.injEq] at hg0
  obtain ⟨hp, _⟩ := hg0
  subst hp
  exact ⟨hg, I0, hI0, hb0⟩

theorem closureComplete_of_inv (g : Grammar) (S : List Char) (start : Str) (b0 b : Builder)
    (I0 : ItemSet) (hI0 : closure g [make (start ++ [Char.ofNat 39]) start 0] = .ok I0)
    (hb0 : b0.C[0]? = some I0) (hr : Reach g S b0 b) (hinv : Inv g b) :
    ClosureComplete g start b :=
  ⟨⟨I0, hI0, reach_prefix g S b0 b hr 0 I0 hb0⟩,
    fun I hI => ⟨(hinv.good I hI).2.2.1, (hinv.good I hI).2.2.2⟩⟩

theorem dotInside_of_inv (g : Grammar) (hl : LhsOk g) (b : Builder) (hinv : Inv g b) :
    DotInside g b := by
  intro I hI s hs
  have ht := (hinv.good I hI).2.1 s hs
  refine ⟨itemOf_of_tracked g s ht, ?_⟩
  intro X t ha
  obtain ⟨A, B, d, hm, _, _, hsd, hp⟩ := tracked_parse g hl s ht
  obtain ⟨A1, B1, d1, hp1, hX, hte⟩ := ha
  rw [hp] at hp1
  cases hp1
  exact ⟨A, B, d, hm, getElem?_lt hX, hsd, hte⟩

theorem itemCount_eq (g : Grammar) :
    itemCount g = (g.map (fun q => q.2.length)).sum + g.length := by
  induction g with
  | nil => rfl
  | cons p ps ih =>
    simp only [itemCount, List.map_cons, List.sum_cons, List.length_cons] at ih ⊢
    omega

theorem key_eq_flatten (s : ItemSet) : key s = (s.map (fun x => x ++ ['|'])).flatten := by
  induction s with
  | nil => rfl
  | cons x xs ih =>
    rw [key_cons, ih]
    simp

/-! ## Settled claims: states, bounds and the key -/

/-- C11: for every grammar with a first production whose left-hand sides contain no "->"
(nothing is needed of the right-hand sides), in every state of the discovery loop and in the
state it finishes with, state 0 is `closure({S'->.S})` for the augmented production and every
item set `C[k]` is non-empty and satisfies `closure(C[k]) = C[k]`. -/
theorem states_closure_complete (p : Str × Str) (ps : Grammar) (S0 : List Char)
    (hl : LhsOk (p :: ps)) :
    ∃ g S b0, setup (p :: ps) S0 = .ok (g, S, b0) ∧
      g = (p.1 ++ [Char.ofNat 39], p.1) :: p :: ps ∧
      (∀ b, Reach g S b0 b → ClosureComplete g p.1 b) ∧
      (∀ n b, discover g S n 0 b0 = .ok b → ClosureComplete g p.1 b) := by
  obtain ⟨g, S, b0, hs⟩ := setup_ok p ps S0
  obtain ⟨hlg, hinv⟩ := setup_inv _ S0 g S b0 hs hl
  obtain ⟨hg, I0, hI0, hb0⟩ := setup_grammar p ps S0 g S b0 hs
  have h0 : b0.C[0]? = some I0 := by rw [hb0]; rfl
  have hall : ∀ b, Reach g S b0 b → ClosureComplete g p.1 b := fun b hr =>
    closureComplete_of_inv g S p.1 b0 b I0 hI0 h0 hr (reach_inv g hlg S b0 b hr hinv)
  exact ⟨g, S, b0, hs, hg, hall,
    fun n b hd => hall b (discover_reach g S b0 n 0 b0 b hd Reach.start)⟩

/-- C11 at the grammar `E->E+T | T`, `T->i` with the alphabet `+ E T i`. -/
theorem states_closure_complete_witness :
    LhsOk (("E".toList, "E+T".toList) :: [("E".toList, "T".toList), ("T".toList, "i".toList)])
    ∧ ∃ g S b0,
      setup (("E".toList, "E+T".toList) :: [("E".toList, "T".toList), ("T".toList, "i".toList)])
        "+ETi".toList = .ok (g, S, b0) ∧
      g = (("E".toList, "E+T".toList).1 ++ [Char.ofNat 39], ("E".toList, "E+T".toList).1) ::
        ("E".toList, "E+T".toList) :: [("E".toList, "T".toList), ("T".toList, "i".toList)] ∧
      (∀ b, Reach g S b0 b → ClosureComplete g ("E".toList, "E+T".toList).1 b) ∧
      (∀ n b, discover g S n 0 b0 = .ok b →
        ClosureComplete g ("E".toList, "E+T".toList).1 b) :=
  ⟨by decide, states_closure_complete _ _ _ (by decide)⟩

/-- C12: for every grammar with a first production whose left-hand sides contain no "->"
(nothing is needed of the right-hand sides), in every state of the discovery loop and in the
state it finishes with, every item of every state is `make(A, B, d)` for a production
`(A, B)` of the augmented grammar and some `d <= |B|`, and `goTo` moves the dot of such an
item only when `d < |B|`. -/
theorem dot_stays_in_production (p : Str × Str) (ps : Grammar) (S0 : List Char)
    (hl : LhsOk (p :: ps)) :
    ∃ g S b0, setup (p :: ps) S0 = .ok (g, S, b0) ∧
      g = (p.1 ++ [Char.ofNat 39], p.1) :: p :: ps ∧
      (∀ b, Reach g S b0 b → DotInside g b) ∧
      (∀ n b, discover g S n 0 b0 = .ok b → DotInside g b) := by
  obtain ⟨g, S, b0, hs⟩ := setup_ok p ps S0
  obtain ⟨hlg, hinv⟩ := setup_inv _ S0 g S b0 hs hl
  obtain ⟨hg, _⟩ := setup_grammar p ps S0 g S b0 hs
  have hall : ∀ b, Reach g S b0 b → DotInside g b := fun b hr =>
    dotInside_of_inv g hlg b (reach_inv g hlg S b0 b hr hinv)
  exact ⟨g, S, b0, hs, hg, hall,
    fun n b hd => hall b (discover_reach g S b0 n 0 b0 b hd Reach.start)⟩

/-- C12 at the grammar `E->E+T | T`, `T->i` with the alphabet `+ E T i`. -/
theorem dot_stays_in_production_witness :
    LhsOk (("E".toList, "E+T".toList) :: [("E".toList, "T".toList), ("T".toList, "i".toList)])
    ∧ ∃ g S b0,
      setup (("E".toList, "E+T".toList) :: [("E".toList, "T".toList), ("T".toList, "i".toList)])
        "+ETi".toList = .ok (g, S, b0) ∧
      g = (("E".toList, "E+T".toList).1 ++ [Char.ofNat 39], ("E".toList, "E+T".toList).1) ::
        ("E".toList, "E+T".toList) :: [("E".toList, "T".toList), ("T".toList, "i".toList)] ∧
      (∀ b, Reach g S b0 b → DotInside g b) ∧
      (∀ n b, discover g S n 0 b0 = .ok b → DotInside g b) :=
  ⟨by decide, dot_stays_in_production _ _ _ (by decide)⟩

/-- C18: for every grammar with a first production whose left-hand sides contain no "->"
(nothing is needed about '.' or '|'), with `P` productions after augmentation and right-hand
sides of total length `R`, the item universe has `R + P` texts, every item of every state of
the finished collection lies in it, the states are pairwise distinct, and the finished
collection has at most `2 ^ (R + P)` states. -/
theorem state_count_bound (p : Str × Str) (ps : Grammar) (S0 : List Char)
    (hl : LhsOk (p :: ps)) :
    ∃ g S b0 b, setup (p :: ps) S0 = .ok (g, S, b0) ∧ automaton (p :: ps) S0 = .ok b ∧
      (itemUniverse g).length = (g.map (fun q => q.2.length)).sum + g.length ∧
      (∀ I ∈ b.C, ∀ s ∈ I, s ∈ itemUniverse g) ∧
      b.C.Nodup ∧
      b.C.length ≤ 2 ^ ((g.map (fun q => q.2.length)).sum + g.length) := by
  obtain ⟨g, S, b0, hs⟩ := setup_ok p ps S0
  obtain ⟨hlg, hinv⟩ := setup_inv _ S0 g S b0 hs hl
  obtain ⟨b, hd⟩ := discover_ok g hlg S (2 ^ itemCount g) 0 b0 hinv (le_refl _)
  have hinvb := reach_inv g hlg S b0 b (discover_reach g S b0 _ 0 b0 b hd Reach.start) hinv
  refine ⟨g, S, b0, b, hs, by simp only [automaton, hs, hd], ?_, ?_,
    idxKey_nodup b hinvb.idxKey, ?_⟩
  · rw [length_itemUniverse, itemCount_eq]
  · intro I hI s hs
    exact mem_itemUniverse g s (itemOf_of_tracked g s ((hinvb.good I hI).2.1 s hs))
  · rw [← itemCount_eq]
    exact inv_card g b hinvb

/-- C18 at the grammar `E->E+T | T`, `T->i` with the alphabet `+ E T i`. -/
theorem state_count_bound_witness :
    LhsOk (("E".toList, "E+T".toList) :: [("E".toList, "T".toList), ("T".toList, "i".toList)])
    ∧ ∃ g S b0 b,
      setup (("E".toList, "E+T".toList) :: [("E".toList, "T".toList), ("T".toList, "i".toList)])
        "+ETi".toList = .ok (g, S, b0) ∧
      automaton (("E".toList, "E+T".toList) ::
        [("E".toList, "T".toList), ("T".toList, "i".toList)]) "+ETi".toList = .ok b ∧
      (itemUniverse g).length = (g.map (fun q => q.2.length)).sum + g.length ∧
      (∀ I ∈ b.C, ∀ s ∈ I, s ∈ itemUniverse g) ∧
      b.C.Nodup ∧
      b.C.length ≤ 2 ^ ((g.map (fun q => q.2.length)).sum + g.length) :=
  ⟨by decide, state_count_bound _ _ _ (by decide)⟩

/-- C19: `key` is the concatenation of the items in order, each followed by '|', and for item
sets none of whose items contains '|', `key(s1) = key(s2)` exactly when `s1 = s2`; for sets
(strictly increasing lists) that is exactly when they have the same members. -/
theorem key_identifies_state (s1 s2 : ItemSet) (h1 : ∀ x ∈ s1, '|' ∉ x)
    (h2 : ∀ x ∈ s2, '|' ∉ x) :
    key s1 = (s1.map (fun x => x ++ ['|'])).flatten ∧
    (key s1 = key s2 ↔ s1 = s2) ∧
    (IsSet s1 → IsSet s2 → (key s1 = key s2 ↔ ∀ x, x ∈ s1 ↔ x ∈ s2)) := by
  have hiff : key s1 = key s2 ↔ s1 = s2 :=
    ⟨key_inj s1 s2 h1 h2, fun e => by rw [e]⟩
  refine ⟨key_eq_flatten s1, hiff, fun hs1 hs2 => ?_⟩
  rw [hiff]
  exact ⟨fun e x => by rw [e], isSet_ext s1 s2 hs1 hs2⟩

/-- C19 at the sets `{E->.T, T->.i}` and `{E->.T}`. -/
theorem key_identifies_state_witness :
    (∀ x ∈ ["E->.T".toList, "T->.i".toList], '|' ∉ x) ∧
    (∀ x ∈ ["E->.T".toList], '|' ∉ x) ∧
    key ["E->.T".toList, "T->.i".toList]
      = (["E->.T".toList, "T->.i".toList].map (fun x => x ++ ['|'])).flatten ∧
    (key ["E->.T".toList, "T->.i".toList] = key ["E->.T".toList]
      ↔ ["E->.T".toList, "T->.i".toList] = ["E->.T".toList]) ∧
    (IsSet ["E->.T".toList, "T->.i".toList] → IsSet ["E->.T".toList] →
      (key ["E->.T".toList, "T->.i".toList] = key ["E->.T".toList]
        ↔ ∀ x, x ∈ ["E->.T".toList, "T->.i".toList] ↔ x ∈ ["E->.T".toList])) :=
  ⟨by decide, by decide,
    key_identifies_state ["E->.T".toList, "T->.i".toList] ["E->.T".toList]
      (by decide) (by decide)⟩

/-! ## Lemmas on the numbering of the states -/

theorem getD_nil_of_le {α : Type} (l : List (List α)) (j : Nat) (h : l.length ≤ j) :
    l.getD j [] = [] := by
  rw [List.getD_eq_getElem?_getD, List.getElem?_eq_none h]
  rfl

theorem entry_lt {ν : Type} (T : List (List (Char × ν))) (i : Nat) (X : Char) (k : ν)
    (h : mapGet X (T.getD i []) = some k) : i < T.length := by
  by_contra hi
  rw [getD_nil_of_le T i (by omega)] at h
  simp [mapGet] at h

theorem setup_bfs (g0 : Grammar) (S0 : List Char) (g : Grammar) (S : List Char)
    (b0 : Builder) (h : setup g0 S0 = .ok (g, S, b0)) : Bfs g S b0 := by
  obtain ⟨start, rhs, rest, I0, _, _, _, _, rfl⟩ := setup_cases g0 S0 g S b0 h
  refine ⟨rfl, by simp, ?_, ?_⟩
  · intro i X k hk
    exfalso
    cases i with
    | zero => simp [mapGet] at hk
    | succ i => simp [mapGet] at hk
  · intro k hk0 hk
    simp only [List.length_singleton] at hk
    omega

theorem visit_bfs (g : Grammar) (S : List Char) (i : Nat) (X : Char) (b b1 : Builder)
    (hi : i < b.C.length) (hX : X ∈ S) (h : visit g i X b = .ok b1) (hb : Bfs g S b) :
    Bfs g S b1 := by
  have hshape := visit_shape g i X b b1 h ⟨hb.lenT, hb.pos⟩
  have hiT : i < b.T.length := by rw [hb.lenT]; exact hi
  obtain ⟨J, hJ, ⟨_, rfl⟩ | ⟨hne, hnone, rfl⟩ | ⟨hne, v, hkv, rfl⟩⟩ := visit_cases g i X b b1 h
  · exact hb
  · have hrow : ∀ j, j ≠ i →
        ((b.T ++ [[]]).set i (mapSet X b.C.length ((b.T ++ [[]]).getD i []))).getD j []
          = b.T.getD j [] := by
      intro j hji
      simp only [List.getD_eq_getElem?_getD]
      rw [List.getElem?_set_ne (Ne.symm hji)]
      rcases Nat.lt_trichotomy j b.T.length with hlt | heq | hgt
      · rw [List.getElem?_append_left hlt]
      · rw [heq, List.getElem?_concat_length, List.getElem?_eq_none (le_refl _)]
        rfl
      · rw [List.getElem?_eq_none (by simp; omega), List.getElem?_eq_none (by omega)]
    have hrowi : ((b.T ++ [[]]).set i (mapSet X b.C.length ((b.T ++ [[]]).getD i []))).getD i []
        = mapSet X b.C.length (b.T.getD i []) := by
      simp only [List.getD_eq_getElem?_getD]
      rw [List.getElem?_set_self (by simp; omega), List.getElem?_append_left hiT]
      rfl
    have hCget : ∀ j, j < b.C.length → (b.C ++ [J]).getD j [] = b.C.getD j [] := by
      intro j hj
      simp only [List.getD_eq_getElem?_getD]
      rw [List.getElem?_append_left hj]
    have hidx : ∀ J1 k, mapGet (key J1) b.idx = some k →
        mapGet (key J1) (mapSet (key J) b.C.length b.idx) = some k := by
      intro J1 k hk
      have hne1 : key J1 ≠ key J := fun e => by
        rw [e, hnone] at hk
        cases hk
      rw [mapGet_mapSet_of_ne _ _ _ _ hne1]
      exact hk
    refine ⟨hshape.1, hshape.2, ?_, ?_⟩
    · intro j Y k hk
      simp only at hk ⊢
      by_cases hji : j = i
      · subst hji
        rw [hrowi] at hk
        rw [hCget j hi]
        by_cases hY : Y = X
        · subst hY
          rw [mapGet_mapSet_self] at hk
          cases hk
          exact ⟨J, hJ, mapGet_mapSet_self _ _ _⟩
        · rw [mapGet_mapSet_of_ne _ _ _ _ hY] at hk
          obtain ⟨J1, hJ1, hk1⟩ := hb.linked j Y k hk
          exact ⟨J1, hJ1, hidx J1 k hk1⟩
      · rw [hrow j hji] at hk
        have hj : j < b.C.length := by
          rw [← hb.lenT]
          exact entry_lt b.T j Y k hk
        rw [hCget j hj]
        obtain ⟨J1, hJ1, hk1⟩ := hb.linked j Y k hk
        exact ⟨J1, hJ1, hidx J1 k hk1⟩
    · intro k hk0 hk
      simp only [List.length_append, List.length_singleton] at hk
      simp only
      by_cases hkold : k < b.C.length
      · obtain ⟨j, Y, hjk, hY, hentry⟩ := hb.discovered k hk0 hkold
        refine ⟨j, Y, hjk, hY, ?_⟩
        by_cases hji : j = i
        · subst hji
          rw [hrowi]
          by_cases hYX : Y = X
          · exfalso
            subst hYX
            obtain ⟨J1, hJ1, hk1⟩ := hb.linked j Y k hentry
            rw [hJ] at hJ1
            cases hJ1
            rw [hnone] at hk1
            cases hk1
          · rw [mapGet_mapSet_of_ne _ _ _ _ hYX]
            exact hentry
        · rw [hrow j hji]
          exact hentry
      · have hkeq : k = b.C.length := by omega
        subst hkeq
        exact ⟨i, X, hi, hX, by rw [hrowi]; exact mapGet_mapSet_self _ _ _⟩
  · have hrow : ∀ j, j ≠ i → (b.T.set i (mapSet X v (b.T.getD i []))).getD j []
        = b.T.getD j [] := by
      intro j hji
      simp only [List.getD_eq_getElem?_getD]
      rw [List.getElem?_set_ne (Ne.symm hji)]
    have hrowi : (b.T.set i (mapSet X v (b.T.getD i []))).getD i []
        = mapSet X v (b.T.getD i []) := by
      simp only [List.getD_eq_getElem?_getD]
      rw [List.getElem?_set_self hiT]
      rfl
    refine ⟨hshape.1, hshape.2, ?_, ?_⟩
    · intro j Y k hk
      simp only at hk ⊢
      by_cases hji : j = i
      · subst hji
        rw [hrowi] at hk
        by_cases hY : Y = X
        · subst hY
          rw [mapGet_mapSet_self] at hk
          cases hk
          exact ⟨J, hJ, hkv⟩
        · rw [mapGet_mapSet_of_ne _ _ _ _ hY] at hk
          exact hb.linked j Y k hk
      · rw [hrow j hji] at hk
        exact hb.linked j Y k hk
    · intro k hk0 hk
      simp only at hk ⊢
      obtain ⟨j, Y, hjk, hY, hentry⟩ := hb.discovered k hk0 hk
      refine ⟨j, Y, hjk, hY, ?_⟩
      by_cases hji : j = i
      · subst hji
        rw [hrowi]
        by_cases hYX : Y = X
        · subst hYX
          obtain ⟨J1, hJ1, hk1⟩ := hb.linked j Y k hentry
          rw [hJ] at hJ1
          cases hJ1
          rw [hkv] at hk1
          cases hk1
          exact mapGet_mapSet_self _ _ _
        · rw [mapGet_mapSet_of_ne _ _ _ _ hYX]
          exact hentry
      · rw [hrow j hji]
        exact hentry

theorem reach_bfs (g : Grammar) (S : List Char) (b0 b : Builder) (hr : Reach g S b0 b)
    (h0 : Bfs g S b0) : Bfs g S b := by
  induction hr with
  | start => exact h0
  | step b1 b2 i X _ hi hX hv ih => exact visit_bfs g S i X b1 b2 hi hX hv ih

theorem path_of_discovered (S : List Char) (b : Builder) (hd : Discovered S b) (k : Nat)
    (hk : k < b.C.length) : Path b k := by
  induction k using Nat.strong_induction_on with
  | _ k ih =>
    by_cases hk0 : k = 0
    · subst hk0
      exact Path.root
    · obtain ⟨i, X, hik, _, hentry⟩ := hd k (by omega) hk
      exact Path.edge i k X (ih i hik (by omega)) hentry

theorem expand_of_no_match (N : Char) (g : Grammar) (st : ItemSet × Bool)
    (h : ∀ q ∈ g, q.1.headD (Char.ofNat 0) ≠ N) : expand N g st = st := by
  induction g generalizing st with
  | nil => rfl
  | cons q qs ih =>
    simp only [expand, if_neg (h q (List.mem_cons_self _ _))]
    exact ih st (fun x hx => h x (List.mem_cons_of_mem _ hx))

/-! ## Settled claims: numbering of the states and the scenarios -/

/-- C20: for every grammar with a first production, in the state the discovery loop finishes
with (and in every state it passes through), every state index `k` with `0 < k < |C|` has an
index `i < k` and a symbol `X` of the alphabet with `T[i][X] = k`; hence every state is
reached from state 0 by a finite path of recorded transitions; and `|T| = |C|`. -/
theorem states_reachable (p : Str × Str) (ps : Grammar) (S0 : List Char) :
    ∃ g S b0, setup (p :: ps) S0 = .ok (g, S, b0) ∧
      (∀ n b, discover g S n 0 b0 = .ok b →
        Discovered S b ∧ (∀ k, k < b.C.length → Path b k) ∧ b.T.length = b.C.length) ∧
      (∀ b, Reach g S b0 b →
        Discovered S b ∧ (∀ k, k < b.C.length → Path b k) ∧ b.T.length = b.C.length) := by
  obtain ⟨g, S, b0, hs⟩ := setup_ok p ps S0
  have h0 := setup_bfs _ S0 g S b0 hs
  have hall : ∀ b, Reach g S b0 b →
      Discovered S b ∧ (∀ k, k < b.C.length → Path b k) ∧ b.T.length = b.C.length := by
    intro b hr
    have hb := reach_bfs g S b0 b hr h0
    exact ⟨hb.discovered, path_of_discovered S b hb.discovered, hb.lenT⟩
  exact ⟨g, S, b0, hs,
    fun n b hd => hall b (discover_reach g S b0 n 0 b0 b hd Reach.start), hall⟩

/-- C13: the lines `E=E+T|T` and `T=id` are read as the productions `E->E+T`, `E->T`,
`T->id`; augmentation puts `E'->E` at index 0; state 0 is `{E'->.E, E->.E+T, E->.T, T->.id}`
(also in the finished collection); `goTo(state 0, 'T')` contains `E->T.`; and `goTo` from
state 0 on `E`, then `+`, then `T` yields a set that contains `E->E+T.`. -/
theorem scenario_A :
    (ingest ["E=E+T|T".toList, "T=id".toList]).1
      = [("E".toList, "E+T".toList), ("E".toList, "T".toList), ("T".toList, "id".toList)] ∧
    setup (ingest ["E=E+T|T".toList, "T=id".toList]).1
        (ingest ["E=E+T|T".toList, "T=id".toList]).2
      = .ok ([("E'".toList, "E".toList), ("E".toList, "E+T".toList), ("E".toList, "T".toList),
              ("T".toList, "id".toList)],
             "+ETdi".toList,
             { C := [["E'->.E".toList, "E->.E+T".toList, "E->.T".toList, "T->.id".toList]],
               T := [[]],
               idx := [("E'->.E|E->.E+T|E->.T|T->.id|".toList, 0)] }) ∧
    (run ["E=E+T|T".toList, "T=id".toList]).map (fun b => b.C[0]?)
      = .ok (some ["E'->.E".toList, "E->.E+T".toList, "E->.T".toList, "T->.id".toList]) ∧
    (∃ J, goTo [("E'".toList, "E".toList), ("E".toList, "E+T".toList),
          ("E".toList, "T".toList), ("T".toList, "id".toList)]
        ["E'->.E".toList, "E->.E+T".toList, "E->.T".toList, "T->.id".toList] 'T' = .ok J ∧
      "E->T.".toList ∈ J) ∧
    (∃ J1 J2 J3,
      goTo [("E'".toList, "E".toList), ("E".toList, "E+T".toList),
          ("E".toList, "T".toList), ("T".toList, "id".toList)]
        ["E'->.E".toList, "E->.E+T".toList, "E->.T".toList, "T->.id".toList] 'E' = .ok J1 ∧
      goTo [("E'".toList, "E".toList), ("E".toList, "E+T".toList),
          ("E".toList, "T".toList), ("T".toList, "id".toList)] J1 '+' = .ok J2 ∧
      goTo [("E'".toList, "E".toList), ("E".toList, "E+T".toList),
          ("E".toList, "T".toList), ("T".toList, "id".toList)] J2 'T' = .ok J3 ∧
      "E->E+T.".toList ∈ J3) :=
  ⟨rfl, rfl, rfl,
    ⟨["E->T.".toList], rfl, by decide⟩,
    ⟨["E'->E.".toList, "E->E.+T".toList], ["E->E+.T".toList, "T->.id".toList],
      ["E->E+T.".toList], rfl, rfl, rfl, by decide⟩⟩

/-- C14 as stated fails: with the lines `E=E+T|T` and `T=id` the alphabet built by `main` is
`+ E T d i`, and for none of its symbols `X` is `goTo(state 0, X)` the set `{T->id.}`. -/
theorem scenario_A_id_counterexample :
    ¬ ∃ X ∈ (ingest ["E=E+T|T".toList, "T=id".toList]).2,
      goTo [("E'".toList, "E".toList), ("E".toList, "E+T".toList),
          ("E".toList, "T".toList), ("T".toList, "id".toList)]
        ["E'->.E".toList, "E->.E+T".toList, "E->.T".toList, "T->.id".toList] X
        = .ok ["T->id.".toList] := by
  rintro ⟨X, hX, h⟩
  have hS : (ingest ["E=E+T|T".toList, "T=id".toList]).2 = ['+', 'E', 'T', 'd', 'i'] := rfl
  rw [hS] at hX
  simp only [List.mem_cons, List.mem_singleton, List.not_mem_nil, or_false] at hX
  rcases hX with rfl | rfl | rfl | rfl | rfl
  · have e : goTo [("E'".toList, "E".toList), ("E".toList, "E+T".toList),
          ("E".toList, "T".toList), ("T".toList, "id".toList)]
        ["E'->.E".toList, "E->.E+T".toList, "E->.T".toList, "T->.id".toList] '+'
        = .ok [] := rfl
    exact absurd (Except.ok.inj (e.symm.trans h)) (by decide)
  · have e : goTo [("E'".toList, "E".toList), ("E".toList, "E+T".toList),
          ("E".toList, "T".toList), ("T".toList, "id".toList)]
        ["E'->.E".toList, "E->.E+T".toList, "E->.T".toList, "T->.id".toList] 'E'
        = .ok ["E'->E.".toList, "E->E.+T".toList] := rfl
    exact absurd (Except.ok.inj (e.symm.trans h)) (by decide)
  · have e : goTo [("E'".toList, "E".toList), ("E".toList, "E+T".toList),
          ("E".toList, "T".toList), ("T".toList, "id".toList)]
        ["E'->.E".toList, "E->.E+T".toList, "E->.T".toList, "T->.id".toList] 'T'
        = .ok ["E->T.".toList] := rfl
    exact absurd (Except.ok.inj (e.symm.trans h)) (by decide)
  · have e : goTo [("E'".toList, "E".toList), ("E".toList, "E+T".toList),
          ("E".toList, "T".toList), ("T".toList, "id".toList)]
        ["E'->.E".toList, "E->.E+T".toList, "E->.T".toList, "T->.id".toList] 'd'
        = .ok [] := rfl
    exact absurd (Except.ok.inj (e.symm.trans h)) (by decide)
  · have e : goTo [("E'".toList, "E".toList), ("E".toList, "E+T".toList),
          ("E".toList, "T".toList), ("T".toList, "id".toList)]
        ["E'->.E".toList, "E->.E+T".toList, "E->.T".toList, "T->.id".toList] 'i'
        = .ok ["T->i.d".toList] := rfl
    exact absurd (Except.ok.inj (e.symm.trans h)) (by decide)

/-- C14, amended: with the lines `E=E+T|T` and `T=id` the alphabet built by `main` is the
characters `+ E T d i`; `goTo(state 0, 'i')` is exactly `{T->i.d}` and `goTo` of that set on
`'d'` is exactly `{T->id.}`, whose item has its dot at the end of `id`; the finished table
records `T[0]['i'] = 3`, `T[3]['d'] = 5`, and state 5 is `{T->id.}`. -/
theorem scenario_A_id_by_characters :
    (ingest ["E=E+T|T".toList, "T=id".toList]).2 = ['+', 'E', 'T', 'd', 'i'] ∧
    goTo [("E'".toList, "E".toList), ("E".toList, "E+T".toList),
        ("E".toList, "T".toList), ("T".toList, "id".toList)]
      ["E'->.E".toList, "E->.E+T".toList, "E->.T".toList, "T->.id".toList] 'i'
      = .ok ["T->i.d".toList] ∧
    goTo [("E'".toList, "E".toList), ("E".toList, "E+T".toList),
        ("E".toList, "T".toList), ("T".toList, "id".toList)] ["T->i.d".toList] 'd'
      = .ok ["T->id.".toList] ∧
    parse "T->id.".toList = .ok ("T".toList, "id".toList, "id".toList.length) ∧
    (run ["E=E+T|T".toList, "T=id".toList]).map
        (fun b => (mapGet 'i' (b.T.getD 0 []), mapGet 'd' (b.T.getD 3 []), b.C[5]?))
      = .ok (some 3, some 5, some ["T->id.".toList]) :=
  ⟨rfl, rfl, rfl, rfl, rfl⟩

/-- C15: the lines `S=A` and `A=a|#` are read as `S->A`, `A->a` and `A->` with an empty
right-hand side; state 0 is `closure({S'->.S})` and contains `S->.A` and the item `A->.`,
which is `make(A, "", 0)` and is read by `parse` with dot position 0, the length of its
right-hand side. -/
theorem scenario_B :
    (ingest ["S=A".toList, "A=a|#".toList]).1
      = [("S".toList, "A".toList), ("A".toList, "a".toList), ("A".toList, [])] ∧
    setup (ingest ["S=A".toList, "A=a|#".toList]).1 (ingest ["S=A".toList, "A=a|#".toList]).2
      = .ok ([("S'".toList, "S".toList), ("S".toList, "A".toList), ("A".toList, "a".toList),
              ("A".toList, [])],
             "#ASa".toList,
             { C := [["A->.".toList, "A->.a".toList, "S'->.S".toList, "S->.A".toList]],
               T := [[]],
               idx := [("A->.|A->.a|S'->.S|S->.A|".toList, 0)] }) ∧
    closure [("S'".toList, "S".toList), ("S".toList, "A".toList), ("A".toList, "a".toList),
        ("A".toList, [])] [make "S'".toList "S".toList 0]
      = .ok ["A->.".toList, "A->.a".toList, "S'->.S".toList, "S->.A".toList] ∧
    "S->.A".toList ∈ ["A->.".toList, "A->.a".toList, "S'->.S".toList, "S->.A".toList] ∧
    "A->.".toList ∈ ["A->.".toList, "A->.a".toList, "S'->.S".toList, "S->.A".toList] ∧
    "A->.".toList = make "A".toList [] 0 ∧
    parse "A->.".toList = .ok ("A".toList, [], ([] : Str).length) ∧
    IsReduce "A->.".toList :=
  ⟨rfl, rfl, rfl, by decide, by decide, rfl, rfl, ⟨"A".toList, [], 0, rfl, rfl⟩⟩

/-- C16 as stated fails: the lines `E=E+T` and `E'=a` give a grammar that already has a
production with left-hand side `E'`; augmentation returns normally with the two productions
`E'->E` and `E'->a`, state 0 is built, and the discovery loop finishes with five states. -/
theorem scenario_D_counterexample :
    ("E'".toList, "a".toList) ∈ (ingest ["E=E+T".toList, "E'=a".toList]).1 ∧
    setup (ingest ["E=E+T".toList, "E'=a".toList]).1 (ingest ["E=E+T".toList, "E'=a".toList]).2
      = .ok ([("E'".toList, "E".toList), ("E".toList, "E+T".toList), ("E'".toList, "a".toList)],
             "+ETa".toList,
             { C := [["E'->.E".toList, "E'->.a".toList, "E->.E+T".toList]],
               T := [[]],
               idx := [("E'->.E|E'->.a|E->.E+T|".toList, 0)] }) ∧
    (run ["E=E+T".toList, "E'=a".toList]).map (fun b => b.C.length) = .ok 5 :=
  ⟨by decide, rfl, rfl⟩

/-- C16, amended: for every grammar that already contains a production whose left-hand side
is the first production's left-hand side followed by an apostrophe, augmentation does not
fail: it puts a second production for that name at index 0, keeps the productions read, and
builds state 0; when the left-hand sides contain no "->" the discovery loop then returns an
automaton. -/
theorem augmentation_never_fails (p : Str × Str) (ps : Grammar) (S0 : List Char) (r : Str)
    (h : (p.1 ++ [Char.ofNat 39], r) ∈ p :: ps) :
    ∃ g S b0, setup (p :: ps) S0 = .ok (g, S, b0) ∧
      g[0]? = some (p.1 ++ [Char.ofNat 39], p.1) ∧
      g.tail = p :: ps ∧
      (p.1 ++ [Char.ofNat 39], r) ∈ g.tail ∧
      b0.C.length = 1 ∧
      (LhsOk (p :: ps) → ∃ b, automaton (p :: ps) S0 = .ok b) := by
  obtain ⟨g, S, b0, hs⟩ := setup_ok p ps S0
  obtain ⟨hg, I0, _, hb0⟩ := setup_grammar p ps S0 g S b0 hs
  refine ⟨g, S, b0, hs, by rw [hg]; rfl, by rw [hg]; rfl, by rw [hg]; exact h,
    by rw [hb0]; rfl, ?_⟩
  intro hl
  obtain ⟨hlg, hinv⟩ := setup_inv _ S0 g S b0 hs hl
  obtain ⟨b, hd⟩ := discover_ok g hlg S (2 ^ itemCount g) 0 b0 hinv (le_refl _)
  exact ⟨b, by simp only [automaton, hs, hd]⟩

/-- C16 amended, at the grammar `E->E+T`, `E'->a` with the alphabet `+ E T a`. -/
theorem augmentation_never_fails_witness :
    (("E".toList, "E+T".toList).1 ++ [Char.ofNat 39], "a".toList)
      ∈ ("E".toList, "E+T".toList) :: [("E'".toList, "a".toList)] ∧
    ∃ g S b0,
      setup (("E".toList, "E+T".toList) :: [("E'".toList, "a".toList)]) "+ETa".toList
        = .ok (g, S, b0) ∧
      g[0]? = some (("E".toList, "E+T".toList).1 ++ [Char.ofNat 39],
        ("E".toList, "E+T".toList).1) ∧
      g.tail = ("E".toList, "E+T".toList) :: [("E'".toList, "a".toList)] ∧
      (("E".toList, "E+T".toList).1 ++ [Char.ofNat 39], "a".toList) ∈ g.tail ∧
      b0.C.length = 1 ∧
      (LhsOk (("E".toList, "E+T".toList) :: [("E'".toList, "a".toList)]) →
        ∃ b, automaton (("E".toList, "E+T".toList) :: [("E'".toList, "a".toList)])
          "+ETa".toList = .ok b) :=
  ⟨by decide, augmentation_never_fails _ _ _ "a".toList (by decide)⟩

/-- C17 as stated fails: the line `S=A` gives a grammar whose only right-hand side holds the
uppercase letter `A`, the left-hand side of no production; construction returns normally with
three states, and state 0 holds no item for `A`. -/
theorem undefined_nonterminal_counterexample :
    (ingest ["S=A".toList]).1 = [("S".toList, "A".toList)] ∧
    'A'.isUpper = true ∧
    (∀ q ∈ (ingest ["S=A".toList]).1, q.1 ≠ ['A']) ∧
    (run ["S=A".toList]).map (fun b => b.C)
      = .ok [["S'->.S".toList, "S->.A".toList], ["S->A.".toList], ["S'->S.".toList]] :=
  ⟨rfl, by decide, by decide, rfl⟩

/-- C17, amended: for every grammar with a first production whose left-hand sides contain no
"->", also one in which some right-hand side holds an uppercase letter that is the left-hand
side of no production, construction does not fail and returns an automaton; for a letter `N`
with which no left-hand side of the augmented grammar begins, the production loop of
`closure` inserts nothing. -/
theorem undefined_nonterminal_ignored (p : Str × Str) (ps : Grammar) (S0 : List Char)
    (hl : LhsOk (p :: ps)) :
    ∃ g S b0 b, setup (p :: ps) S0 = .ok (g, S, b0) ∧ automaton (p :: ps) S0 = .ok b ∧
      ∀ N, (∀ q ∈ g, q.1.headD (Char.ofNat 0) ≠ N) → ∀ st, expand N g st = st := by
  obtain ⟨g, S, b0, hs⟩ := setup_ok p ps S0
  obtain ⟨hlg, hinv⟩ := setup_inv _ S0 g S b0 hs hl
  obtain ⟨b, hd⟩ := discover_ok g hlg S (2 ^ itemCount g) 0 b0 hinv (le_refl _)
  exact ⟨g, S, b0, b, hs, by simp only [automaton, hs, hd],
    fun N hN st => expand_of_no_match N g st hN⟩

/-- C17 amended, at the grammar `S->A` with the alphabet `A S`. -/
theorem undefined_nonterminal_ignored_witness :
    LhsOk (("S".toList, "A".toList) :: []) ∧
    ∃ g S b0 b, setup (("S".toList, "A".toList) :: []) "AS".toList = .ok (g, S, b0) ∧
      automaton (("S".toList, "A".toList) :: []) "AS".toList = .ok b ∧
      ∀ N, (∀ q ∈ g, q.1.headD (Char.ofNat 0) ≠ N) → ∀ st, expand N g st = st :=
  ⟨by decide, undefined_nonterminal_ignored _ _ _ (by decide)⟩

end Week9
